import Mathlib

/-!
# Verification of the wlrenv niri persistence and ordering core

Shallow embedding of the position store (`src/wlrenv/niri/positions.py`),
the ordering engine (`src/wlrenv/niri/ordering.py`) and the URL identity
matcher (`src/wlrenv/niri/librewolf.py`), together with proofs of the
specified properties.

Python `dict`s are modelled as insertion-ordered association lists
(`List (String × _)`): assignment to an existing key updates the value in
place, assignment to a fresh key appends, deletion and comprehension
filtering preserve the order of the remaining items, and iteration takes
the list in order.  Python string comparison (`<` on `str`) is code-point
lexicographic, which coincides with Lean's `String` order.
-/

namespace WlrEnv

/-- `PositionEntry` from `positions.py`: a single window position entry. -/
structure PositionEntry where
  id : String
  index : Int
  window_id : Int
  width : Int
deriving DecidableEq, Repr

/-- `BootData` from `positions.py`: position data for a single boot session.
`workspaces` is a Python dict keyed by the workspace id rendered with `str`. -/
structure BootData where
  updated_at : String
  apps : List String
  workspaces : List (String × List PositionEntry)
deriving DecidableEq, Repr

/-- `PositionsFile` from `positions.py`: root structure for positions.json. -/
structure PositionsFile where
  version : Int := 1
  boots : List (String × BootData)
deriving DecidableEq, Repr

/-- The fresh `BootData(updated_at="")` record created by `upsert_entries`
when the current boot has no record yet. -/
def BootData.init : BootData := ⟨"", [], []⟩

/-- Python dict assignment `d[k] = v`: replace the value at `k` in place if
the key is present, otherwise append the new binding at the end. -/
def dictInsert {β : Type} (k : String) (v : β) (d : List (String × β)) :
    List (String × β) :=
  if d.any (fun p => p.1 = k) then
    d.map (fun p => if p.1 = k then (k, v) else p)
  else
    d ++ [(k, v)]

/-- One Python `del d[k]` on a dict: drop the binding for `k`, keeping the
other bindings in order. -/
def dictErase {β : Type} (d : List (String × β)) (k : String) :
    List (String × β) :=
  d.filter (fun p => p.1 ≠ k)

/-- The domination test of `prune_dominated_boots`:
`set(boot.apps) <= set(current.apps) and boot.updated_at < current_time`,
with Python's code-point-lexicographic string `<`. -/
def dominatedBy (boot current : BootData) : Bool :=
  boot.apps.all (fun a => a ∈ current.apps) &&
    decide (boot.updated_at < current.updated_at)

/-- The `to_delete` list collected by the loop in `prune_dominated_boots`:
every boot id other than the current one whose record is dominated by the
current record, in store order. -/
def pruneDeleteList (currentBootId : String) (current : BootData)
    (data : PositionsFile) : List String :=
  data.boots.filterMap (fun p =>
    if p.1 = currentBootId then none
    else if dominatedBy p.2 current then some p.1 else none)

/-- `prune_dominated_boots` from `positions.py`, as the pure transformation
it performs on the loaded store.  If the current boot is missing the store
is returned unchanged; otherwise the collected `to_delete` ids are deleted
one by one. -/
def prune_dominated_boots (currentBootId : String) (data : PositionsFile) :
    PositionsFile :=
  match data.boots.lookup currentBootId with
  | none => data
  | some current =>
    { data with
      boots :=
        (pruneDeleteList currentBootId current data).foldl dictErase data.boots }

/-! ## Generic association-list lemmas -/

theorem lookup_eq_some_of_mem {β : Type} {d : List (String × β)} {k : String}
    {v : β} (hnd : (d.map Prod.fst).Nodup) (hmem : (k, v) ∈ d) :
    d.lookup k = some v := by
  induction d with
  | nil => cases hmem
  | cons p d ih =>
    simp only [List.map_cons, List.nodup_cons] at hnd
    rcases List.mem_cons.mp hmem with h | h
    · subst h
      simp [List.lookup]
    · have hne : p.1 ≠ k := by
        intro he
        exact hnd.1 (he ▸ (List.mem_map.mpr ⟨(k, v), h, rfl⟩))
      have hbeq : (k == p.1) = false := beq_eq_false_iff_ne.mpr (Ne.symm hne)
      simp only [List.lookup, hbeq]
      exact ih hnd.2 h

theorem mem_of_lookup_eq_some {β : Type} {d : List (String × β)} {k : String}
    {v : β} (h : d.lookup k = some v) : (k, v) ∈ d := by
  induction d with
  | nil => simp [List.lookup] at h
  | cons p d ih =>
    by_cases hk : k = p.1
    · have hbeq : (k == p.1) = true := beq_iff_eq.mpr hk
      simp only [List.lookup, hbeq] at h
      cases h
      subst hk
      exact List.mem_cons_self _ _
    · have hbeq : (k == p.1) = false := beq_eq_false_iff_ne.mpr hk
      simp only [List.lookup, hbeq] at h
      exact List.mem_cons_of_mem _ (ih h)

theorem lookup_isSome_iff {β : Type} {d : List (String × β)} {k : String} :
    (d.lookup k).isSome = true ↔ k ∈ d.map Prod.fst := by
  induction d with
  | nil => simp [List.lookup]
  | cons p d ih =>
    simp only [List.map_cons, List.mem_cons]
    by_cases hk : k = p.1
    · have hbeq : (k == p.1) = true := beq_iff_eq.mpr hk
      simp only [List.lookup, hbeq]
      simp [hk]
    · have hbeq : (k == p.1) = false := beq_eq_false_iff_ne.mpr hk
      simp only [List.lookup, hbeq]
      simp [ih, hk]

theorem lookup_eq_none_iff {β : Type} {d : List (String × β)} {k : String} :
    d.lookup k = none ↔ k ∉ d.map Prod.fst := by
  rw [← lookup_isSome_iff]
  cases h : d.lookup k <;> simp [h]

/-- Folding single-key deletions over a list of keys removes exactly the
bindings whose key occurs in the list. -/
theorem foldl_dictErase_eq_filter {β : Type} (ks : List String)
    (d : List (String × β)) :
    ks.foldl dictErase d = d.filter (fun p => p.1 ∉ ks) := by
  induction ks generalizing d with
  | nil => simp
  | cons k ks ih =>
    simp only [List.foldl_cons, ih, dictErase, List.filter_filter]
    congr 1
    funext p
    by_cases h1 : p.1 = k <;> by_cases h2 : p.1 ∈ ks <;>
      simp [h1, h2]

theorem lookup_dictErase {β : Type} (d : List (String × β)) (k' k : String) :
    (dictErase d k').lookup k = if k = k' then none else d.lookup k := by
  induction d with
  | nil => simp [dictErase, List.lookup]
  | cons p d ih =>
    by_cases hp : p.1 = k'
    · have : dictErase (p :: d) k' = dictErase d k' := by
        simp [dictErase, hp]
      rw [this, ih]
      by_cases hk : k = k'
      · simp [hk]
      · have hbeq : (k == p.1) = false :=
          beq_eq_false_iff_ne.mpr (by rw [hp]; exact hk)
        simp [hk, List.lookup, hbeq]
    · have : dictErase (p :: d) k' = p :: dictErase d k' := by
        simp [dictErase, hp]
      rw [this]
      by_cases hk : k = p.1
      · have hbeq : (k == p.1) = true := beq_iff_eq.mpr hk
        have hkk : k ≠ k' := fun h => hp (by rw [← hk, h])
        simp [List.lookup, hbeq, hkk]
      · have hbeq : (k == p.1) = false := beq_eq_false_iff_ne.mpr hk
        simp [List.lookup, hbeq, ih]

theorem lookup_foldl_dictErase {β : Type} (ks : List String)
    (d : List (String × β)) (k : String) :
    (ks.foldl dictErase d).lookup k = if k ∈ ks then none else d.lookup k := by
  induction ks generalizing d with
  | nil => simp
  | cons k' ks ih =>
    simp only [List.foldl_cons, ih, lookup_dictErase, List.mem_cons]
    by_cases h1 : k ∈ ks <;> by_cases h2 : k = k' <;> simp [h1, h2]

/-! ## C1 / C9: dominance pruning -/

theorem mem_pruneDeleteList_iff {currentBootId : String} {current : BootData}
    {data : PositionsFile} {bId : String} :
    bId ∈ pruneDeleteList currentBootId current data ↔
      ∃ p ∈ data.boots, p.1 = bId ∧ bId ≠ currentBootId ∧
        dominatedBy p.2 current = true := by
  simp only [pruneDeleteList, List.mem_filterMap]
  constructor
  · rintro ⟨p, hp, hf⟩
    by_cases h1 : p.1 = currentBootId
    · simp [h1] at hf
    · by_cases h2 : dominatedBy p.2 current
      · simp only [h1, h2, if_true, if_false, if_neg h1] at hf
        cases hf
        exact ⟨p, hp, rfl, h1, h2⟩
      · simp [h1, h2] at hf
  · rintro ⟨p, hp, hkey, hne, hdom⟩
    refine ⟨p, hp, ?_⟩
    rw [if_neg (by rw [hkey]; exact hne), if_pos hdom, hkey]

theorem not_currentBootId_mem_pruneDeleteList {currentBootId : String}
    {current : BootData} {data : PositionsFile} :
    currentBootId ∉ pruneDeleteList currentBootId current data := by
  intro h
  rcases mem_pruneDeleteList_iff.mp h with ⟨p, _, _, hne, _⟩
  exact hne rfl

/-- With unique boot ids, membership of a looked-up boot in the delete list
is exactly the domination condition on its record. -/
theorem lookup_mem_pruneDeleteList_iff {currentBootId bId : String}
    {current bd : BootData} {data : PositionsFile}
    (hnd : (data.boots.map Prod.fst).Nodup)
    (hne : bId ≠ currentBootId)
    (hbd : data.boots.lookup bId = some bd) :
    bId ∈ pruneDeleteList currentBootId current data ↔
      dominatedBy bd current = true := by
  rw [mem_pruneDeleteList_iff]
  constructor
  · rintro ⟨p, hp, hkey, -, hdom⟩
    have : data.boots.lookup p.1 = some p.2 := lookup_eq_some_of_mem hnd hp
    rw [hkey, hbd] at this
    cases this
    exact hdom
  · intro hdom
    exact ⟨(bId, bd), mem_of_lookup_eq_some hbd, rfl, hne, hdom⟩

/-- C1.  With the current boot present in the store, `prune_dominated_boots`
deletes another boot `bId` exactly when its app set is contained in the
current boot's app set and its `updated_at` timestamp is lexicographically
strictly smaller than the current boot's; in particular a boot with an app
outside the current boot's app set is never deleted. -/
theorem prune_dominated_deletes_iff (data : PositionsFile)
    (currentBootId bId : String) (current bd : BootData)
    (hnd : (data.boots.map Prod.fst).Nodup)
    (hcur : data.boots.lookup currentBootId = some current)
    (hne : bId ≠ currentBootId)
    (hbd : data.boots.lookup bId = some bd) :
    (prune_dominated_boots currentBootId data).boots.lookup bId = none ↔
      ((∀ a ∈ bd.apps, a ∈ current.apps) ∧
        bd.updated_at < current.updated_at) := by
  have hform :
      (prune_dominated_boots currentBootId data).boots.lookup bId =
        if bId ∈ pruneDeleteList currentBootId current data then none
        else data.boots.lookup bId := by
    simp only [prune_dominated_boots, hcur]
    exact lookup_foldl_dictErase _ _ _
  rw [hform]
  by_cases hmem : bId ∈ pruneDeleteList currentBootId current data
  · have := (lookup_mem_pruneDeleteList_iff hnd hne hbd).mp hmem
    simp only [if_pos hmem, dominatedBy, Bool.and_eq_true, List.all_eq_true,
      decide_eq_true_eq] at this ⊢
    simpa using this
  · have hncond :
        ¬ ((∀ a ∈ bd.apps, a ∈ current.apps) ∧
          bd.updated_at < current.updated_at) := by
      intro hc
      exact hmem ((lookup_mem_pruneDeleteList_iff hnd hne hbd).mpr
        (by simp only [dominatedBy, Bool.and_eq_true, List.all_eq_true,
              decide_eq_true_eq]
            exact ⟨fun a ha => by simpa using hc.1 a ha, hc.2⟩))
    rw [if_neg hmem, hbd]
    constructor
    · intro h
      exact absurd h (Option.some_ne_none _)
    · intro hc
      exact absurd hc hncond

/-- C9.  `prune_dominated_boots` never touches the current boot's record,
returns every surviving record byte-for-byte unchanged, and is the identity
when the current boot has no record at all. -/
theorem prune_dominated_frame (data : PositionsFile) (currentBootId : String) :
    ((prune_dominated_boots currentBootId data).boots.lookup currentBootId =
        data.boots.lookup currentBootId) ∧
      (∀ bId bd,
        (prune_dominated_boots currentBootId data).boots.lookup bId = some bd →
          data.boots.lookup bId = some bd) ∧
      (data.boots.lookup currentBootId = none →
        prune_dominated_boots currentBootId data = data) := by
  refine ⟨?_, ?_, ?_⟩
  · cases hcur : data.boots.lookup currentBootId with
    | none => simp [prune_dominated_boots, hcur]
    | some current =>
      simp only [prune_dominated_boots, hcur]
      rw [lookup_foldl_dictErase,
        if_neg not_currentBootId_mem_pruneDeleteList, hcur]
  · intro bId bd h
    cases hcur : data.boots.lookup currentBootId with
    | none => simpa [prune_dominated_boots, hcur] using h
    | some current =>
      simp only [prune_dominated_boots, hcur] at h
      rw [lookup_foldl_dictErase] at h
      by_cases hmem : bId ∈ pruneDeleteList currentBootId current data
      · simp [hmem] at h
      · simpa [hmem] using h
  · intro hcur
    simp [prune_dominated_boots, hcur]

/-- The example store of spec §8: boot `A` `{tmux}` at `T1`, current boot
`B` `{tmux, mosh}` at `T2 > T1`, and boot `C` `{librewolf}`. -/
def pruneExample : PositionsFile :=
  ⟨1,
    [("A", ⟨"2024-01-01T00:00:00+00:00", ["tmux"], []⟩),
     ("B", ⟨"2024-01-02T00:00:00+00:00", ["tmux", "mosh"], []⟩),
     ("C", ⟨"2024-01-03T00:00:00+00:00", ["librewolf"], []⟩)]⟩

/-- Witness for C1 on the spec §8 example: pruning with current boot `B`
deletes `A` and keeps `C`. -/
theorem prune_dominated_deletes_iff_witness :
    (prune_dominated_boots "B" pruneExample).boots.lookup "A" = none ∧
      (prune_dominated_boots "B" pruneExample).boots.lookup "C" ≠ none := by
  constructor
  · exact (prune_dominated_deletes_iff pruneExample "B" "A"
      ⟨"2024-01-02T00:00:00+00:00", ["tmux", "mosh"], []⟩
      ⟨"2024-01-01T00:00:00+00:00", ["tmux"], []⟩
      (by decide) (by decide) (by decide) (by decide)).mpr
      (by constructor
          · decide
          · rw [String.lt_iff_toList_lt]
            decide)
  · intro h
    have := (prune_dominated_deletes_iff pruneExample "B" "C"
      ⟨"2024-01-02T00:00:00+00:00", ["tmux", "mosh"], []⟩
      ⟨"2024-01-03T00:00:00+00:00", ["librewolf"], []⟩
      (by decide) (by decide) (by decide) (by decide)).mp h
    exact absurd (this.1 "librewolf" (by decide)) (by decide)

/-- Witness for C9 on the spec §8 example: the current boot's record
survives pruning unchanged, survivors are unchanged, and pruning with an
unknown current boot id is the identity. -/
theorem prune_dominated_frame_witness :
    ((prune_dominated_boots "B" pruneExample).boots.lookup "B" =
        pruneExample.boots.lookup "B") ∧
      (prune_dominated_boots "Z" pruneExample = pruneExample) := by
  refine ⟨(prune_dominated_frame pruneExample "B").1, ?_⟩
  exact (prune_dominated_frame pruneExample "Z").2.2 (by decide)

/-! ## C2: upsert -/

/-- The body of `upsert_entries` acting on the current boot's record: add
`app` to the app set, remove any existing entries with the ids being
written from every workspace, drop now-empty workspaces, append the new
entries to the target workspace (`str(workspace_id)`), and refresh
`updated_at`. -/
def upsertBoot (app : String) (workspaceId : Int)
    (entries : List PositionEntry) (now : String) (boot : BootData) :
    BootData :=
  let apps := if app ∈ boot.apps then boot.apps else boot.apps ++ [app]
  let entryIds := entries.map (fun e => e.id)
  let wss := boot.workspaces.map
    (fun p => (p.1, p.2.filter (fun e => e.id ∉ entryIds)))
  let wss := wss.filter (fun p => ¬ p.2.isEmpty)
  let wsKey := toString workspaceId
  let wss :=
    if wss.any (fun p => p.1 = wsKey) then
      wss.map (fun p => if p.1 = wsKey then (p.1, p.2 ++ entries) else p)
    else wss ++ [(wsKey, entries)]
  { updated_at := now, apps := apps, workspaces := wss }

/-- `upsert_entries` from `positions.py` as a pure transformation of the
loaded store.  The source first inserts a fresh `BootData(updated_at="")`
when the boot is missing and then mutates that record in place; the net
effect on the dict is a single keyed insert of the updated record. -/
def upsert_entries (bootId now app : String) (workspaceId : Int)
    (entries : List PositionEntry) (data : PositionsFile) : PositionsFile :=
  { data with
    boots := dictInsert bootId
      (upsertBoot app workspaceId entries now
        ((data.boots.lookup bootId).getD BootData.init))
      data.boots }

/-- A sequence of `upsert_entries` calls against one boot; each call is
`(now, app, workspaceId, entries)`. -/
def upsertCalls (bootId : String)
    (calls : List (String × String × Int × List PositionEntry))
    (data : PositionsFile) : PositionsFile :=
  calls.foldl
    (fun d c => upsert_entries bootId c.1 c.2.1 c.2.2.1 c.2.2.2 d) data

/-- The record a store holds for a boot id (the fresh record if absent). -/
def bootOf (data : PositionsFile) (bootId : String) : BootData :=
  ((data.boots.lookup bootId).getD BootData.init)

/-- Number of entries carrying stable id `i` across all of a boot's
workspace lists. -/
def occCount (boot : BootData) (i : String) : Nat :=
  (boot.workspaces.map (fun p => (p.2.filter (fun e => e.id = i)).length)).sum

/-- `e` is listed in workspace `w` of `boot`. -/
def entryInWs (boot : BootData) (w : String) (e : PositionEntry) : Prop :=
  ∃ p ∈ boot.workspaces, p.1 = w ∧ e ∈ p.2

theorem lookup_dictInsert_self {β : Type} (k : String) (v : β)
    (d : List (String × β)) : (dictInsert k v d).lookup k = some v := by
  induction d with
  | nil => simp [dictInsert, List.lookup]
  | cons p d ih =>
    by_cases hp : p.1 = k
    · have : (p :: d).any (fun q => q.1 = k) = true := by
        simp [List.any_cons, hp]
      simp only [dictInsert, this, if_true, List.map_cons, if_pos hp]
      simp [List.lookup]
    · simp only [dictInsert] at ih ⊢
      have hhead : ((p :: d).any (fun q => q.1 = k)) = (d.any (fun q => q.1 = k)) := by
        simp [List.any_cons, hp]
      have hbeq : (k == p.1) = false := beq_eq_false_iff_ne.mpr (Ne.symm hp)
      by_cases hd : d.any (fun q => q.1 = k)
      · simp only [hhead, hd, if_true, List.map_cons, if_neg hp, List.lookup, hbeq]
        simpa [hd] using ih
      · simp only [hhead, hd, if_false, List.cons_append, List.lookup, hbeq]
        simpa [hd] using ih

/-- Bridge between the file-level and boot-level views of one upsert. -/
theorem bootOf_upsert_entries (bootId now app : String) (workspaceId : Int)
    (entries : List PositionEntry) (data : PositionsFile) :
    bootOf (upsert_entries bootId now app workspaceId entries data) bootId =
      upsertBoot app workspaceId entries now (bootOf data bootId) := by
  simp [bootOf, upsert_entries, lookup_dictInsert_self]

theorem removal_filter_count (l : List PositionEntry) (ids : List String)
    (i : String) :
    ((l.filter (fun e => e.id ∉ ids)).filter (fun e => e.id = i)).length =
      if i ∈ ids then 0 else (l.filter (fun e => e.id = i)).length := by
  rw [List.filter_filter]
  by_cases hi : i ∈ ids
  · rw [if_pos hi, List.length_eq_zero, List.filter_eq_nil_iff]
    intro e _
    simp only [Bool.and_eq_true, decide_eq_true_eq, Bool.not_eq_true',
      decide_eq_false_iff_not, not_and]
    intro heq
    exact fun hnot => hnot (heq ▸ hi)
  · rw [if_neg hi]
    congr 1
    apply List.filter_congr
    intro e _
    by_cases he : e.id = i
    · simp [he, hi]
    · simp [he]

theorem sum_counts_filter_nonempty
    (wss : List (String × List PositionEntry)) (i : String) :
    (((wss.filter (fun p => ¬ p.2.isEmpty)).map
        (fun p => (p.2.filter (fun e => e.id = i)).length)).sum) =
      ((wss.map (fun p => (p.2.filter (fun e => e.id = i)).length)).sum) := by
  induction wss with
  | nil => simp
  | cons p wss ih =>
    by_cases hp : p.2.isEmpty
    · have hempty : p.2 = [] := by
        cases h : p.2 with
        | nil => rfl
        | cons a l => rw [h] at hp; simp [List.isEmpty] at hp
      simp only [List.isEmpty_iff, decide_not] at ih ⊢
      simp [List.filter_cons, hempty, ih]
    · have hne : p.2 ≠ [] := by
        intro h
        rw [h] at hp
        simp [List.isEmpty] at hp
      simp only [List.isEmpty_iff, decide_not] at ih ⊢
      simp [List.filter_cons, hne, ih]

theorem sum_counts_removal (wss : List (String × List PositionEntry))
    (ids : List String) (i : String) :
    (((wss.map (fun p => (p.1, p.2.filter (fun e => e.id ∉ ids)))).map
        (fun p => (p.2.filter (fun e => e.id = i)).length)).sum) =
      if i ∈ ids then 0
      else ((wss.map (fun p => (p.2.filter (fun e => e.id = i)).length)).sum) := by
  induction wss with
  | nil => simp
  | cons p wss ih =>
    simp only [List.map_cons, List.sum_cons, ih, removal_filter_count]
    by_cases hi : i ∈ ids <;> simp [hi]

theorem sum_counts_update_key (wss : List (String × List PositionEntry))
    (wsKey : String) (es : List PositionEntry) (i : String)
    (hnd : (wss.map Prod.fst).Nodup)
    (hany : wss.any (fun p => p.1 = wsKey) = true) :
    (((wss.map (fun p => if p.1 = wsKey then (p.1, p.2 ++ es) else p)).map
        (fun p => (p.2.filter (fun e => e.id = i)).length)).sum) =
      ((wss.map (fun p => (p.2.filter (fun e => e.id = i)).length)).sum) +
        (es.filter (fun e => e.id = i)).length := by
  induction wss with
  | nil => simp at hany
  | cons p wss ih =>
    simp only [List.map_cons, List.nodup_cons] at hnd ⊢
    by_cases hp : p.1 = wsKey
    · have htail : wss.map (fun q => if q.1 = wsKey then (q.1, q.2 ++ es) else q) =
          wss := by
        conv_rhs => rw [← List.map_id wss]
        apply List.map_congr_left
        intro q hq
        have hne : q.1 ≠ wsKey := by
          intro h
          exact hnd.1 (hp ▸ h ▸ List.mem_map.mpr ⟨q, hq, rfl⟩)
        simp [hne]
      rw [if_pos hp, htail]
      simp only [List.sum_cons, List.filter_append, List.length_append]
      omega
    · rw [if_neg hp]
      have htail : wss.any (fun q => q.1 = wsKey) = true := by
        rcases List.any_eq_true.mp hany with ⟨q, hq, hqk⟩
        have hqk' : q.1 = wsKey := of_decide_eq_true hqk
        rcases List.mem_cons.mp hq with h | h
        · exact absurd (by simpa using (h ▸ hqk')) hp
        · exact List.any_eq_true.mpr ⟨q, h, by simpa using hqk'⟩
      simp only [List.sum_cons, ih hnd.2 htail]
      omega

theorem length_filter_id_eq_one {es : List PositionEntry} {i : String}
    (hnd : (es.map (fun e => e.id)).Nodup)
    (hmem : i ∈ es.map (fun e => e.id)) :
    (es.filter (fun e => e.id = i)).length = 1 := by
  induction es with
  | nil => cases hmem
  | cons e es ih =>
    simp only [List.map_cons, List.nodup_cons, List.mem_cons] at hnd hmem
    by_cases he : e.id = i
    · have hnone : es.filter (fun e => e.id = i) = [] := by
        rw [List.filter_eq_nil_iff]
        intro a ha
        simp only [decide_eq_true_eq]
        intro hai
        exact hnd.1 (he ▸ hai ▸ List.mem_map.mpr ⟨a, ha, rfl⟩)
      simp [List.filter_cons, he, hnone]
    · rcases hmem with h | h
      · exact absurd h.symm he
      · simp [List.filter_cons, he, ih hnd.2 h]

theorem length_filter_id_eq_zero {es : List PositionEntry} {i : String}
    (hmem : i ∉ es.map (fun e => e.id)) :
    (es.filter (fun e => e.id = i)).length = 0 := by
  rw [List.length_eq_zero, List.filter_eq_nil_iff]
  intro e he
  simp only [decide_eq_true_eq]
  intro hei
  exact hmem (hei ▸ List.mem_map.mpr ⟨e, he, rfl⟩)

/-- Keys of the workspace dict survive an upsert without duplication. -/
theorem upsertBoot_keys_nodup (app : String) (wsId : Int)
    (es : List PositionEntry) (now : String) (b : BootData)
    (hnd : (b.workspaces.map Prod.fst).Nodup) :
    (((upsertBoot app wsId es now b).workspaces).map Prod.fst).Nodup := by
  unfold upsertBoot
  simp only []
  set wss1 := b.workspaces.map (fun p => (p.1, p.2.filter (fun e => e.id ∉ es.map (fun e => e.id)))) with hwss1
  have h1 : wss1.map Prod.fst = b.workspaces.map Prod.fst := by
    rw [hwss1, List.map_map]
    rfl
  set wss2 := wss1.filter (fun p => ¬ p.2.isEmpty) with hwss2
  have h2 : (wss2.map Prod.fst).Nodup := by
    have : wss2.Sublist wss1 := List.filter_sublist _
    exact (h1 ▸ hnd).sublist (this.map Prod.fst)
  by_cases hany : wss2.any (fun p => p.1 = toString wsId)
  · rw [if_pos hany]
    have : (wss2.map (fun p => if p.1 = toString wsId then (p.1, p.2 ++ es) else p)).map
        Prod.fst = wss2.map Prod.fst := by
      rw [List.map_map]
      apply List.map_congr_left
      intro q _
      by_cases hq : q.1 = toString wsId <;> simp [hq]
    rw [this]
    exact h2
  · rw [if_neg hany]
    rw [List.map_append]
    apply List.Nodup.append h2 (by simp)
    intro a ha hb
    simp only [List.map_cons, List.map_nil, List.mem_singleton] at hb
    rcases List.mem_map.mp ha with ⟨q, hq, hqa⟩
    rw [List.any_eq_true] at hany
    exact hany ⟨q, hq, by simp [hqa, hb]⟩

/-- The occurrence count of a stable id after one upsert: ids being written
end with exactly their multiplicity in `entries`, all other ids keep their
count. -/
theorem occCount_upsertBoot (app : String) (wsId : Int)
    (es : List PositionEntry) (now : String) (b : BootData) (i : String)
    (hnd : (b.workspaces.map Prod.fst).Nodup) :
    occCount (upsertBoot app wsId es now b) i =
      (if i ∈ es.map (fun e => e.id) then 0 else occCount b i) +
        (es.filter (fun e => e.id = i)).length := by
  unfold occCount upsertBoot
  simp only []
  set ids := es.map (fun e => e.id) with hids
  set wss1 := b.workspaces.map (fun p => (p.1, p.2.filter (fun e => e.id ∉ ids))) with hwss1
  set wss2 := wss1.filter (fun p => ¬ p.2.isEmpty) with hwss2
  have hsum2 : (wss2.map (fun p => (p.2.filter (fun e => e.id = i)).length)).sum =
      if i ∈ ids then 0
      else ((b.workspaces.map (fun p => (p.2.filter (fun e => e.id = i)).length)).sum) := by
    rw [hwss2, sum_counts_filter_nonempty, hwss1, sum_counts_removal]
  have h1 : wss1.map Prod.fst = b.workspaces.map Prod.fst := by
    rw [hwss1, List.map_map]
    rfl
  have h2 : (wss2.map Prod.fst).Nodup := by
    have : wss2.Sublist wss1 := List.filter_sublist _
    exact (h1 ▸ hnd).sublist (this.map Prod.fst)
  by_cases hany : wss2.any (fun p => p.1 = toString wsId)
  · rw [if_pos hany, sum_counts_update_key wss2 _ es i h2 hany, hsum2]
  · rw [if_neg hany, List.map_append, List.sum_append]
    simp only [List.map_cons, List.map_nil, List.sum_cons, List.sum_nil]
    rw [hsum2]
    omega

/-- Every entry being written ends up listed in the target workspace. -/
theorem entryInWs_upsertBoot_target (app : String) (wsId : Int)
    (es : List PositionEntry) (now : String) (b : BootData)
    {e : PositionEntry} (he : e ∈ es) :
    entryInWs (upsertBoot app wsId es now b) (toString wsId) e := by
  unfold upsertBoot entryInWs
  simp only []
  set wss2 := (b.workspaces.map
    (fun p => (p.1, p.2.filter (fun e => e.id ∉ es.map (fun e => e.id))))).filter
    (fun p => ¬ p.2.isEmpty) with hwss2
  by_cases hany : wss2.any (fun p => p.1 = toString wsId)
  · rw [if_pos hany]
    rcases List.any_eq_true.mp hany with ⟨q, hq, hqk⟩
    have hqk' : q.1 = toString wsId := of_decide_eq_true hqk
    refine ⟨(q.1, q.2 ++ es), List.mem_map.mpr ⟨q, hq, by rw [if_pos hqk']⟩,
      hqk', ?_⟩
    exact List.mem_append.mpr (Or.inr he)
  · rw [if_neg hany]
    exact ⟨(toString wsId, es), List.mem_append.mpr (Or.inr (by simp)), rfl, he⟩

/-- After an upsert, any entry listed in a workspace other than the target
one was already there and carries none of the ids just written. -/
theorem entryInWs_upsertBoot_other (app : String) (wsId : Int)
    (es : List PositionEntry) (now : String) (b : BootData)
    {w : String} {e : PositionEntry} (hw : w ≠ toString wsId)
    (h : entryInWs (upsertBoot app wsId es now b) w e) :
    e.id ∉ es.map (fun e => e.id) ∧ entryInWs b w e := by
  unfold upsertBoot entryInWs at h
  simp only [] at h
  set wss2 := (b.workspaces.map
    (fun p => (p.1, p.2.filter (fun e => e.id ∉ es.map (fun e => e.id))))).filter
    (fun p => ¬ p.2.isEmpty) with hwss2
  have main : ∀ q ∈ wss2, q.1 = w → e ∈ q.2 →
      e.id ∉ es.map (fun e => e.id) ∧ entryInWs b w e := by
    intro q hq hqw hqe
    have hq1 : q ∈ b.workspaces.map
        (fun p => (p.1, p.2.filter (fun e => e.id ∉ es.map (fun e => e.id)))) :=
      List.mem_of_mem_filter hq
    rcases List.mem_map.mp hq1 with ⟨p0, hp0, hp0q⟩
    have he2 : e ∈ p0.2.filter (fun e => e.id ∉ es.map (fun e => e.id)) := by
      rw [← hp0q] at hqe
      exact hqe
    have := List.of_mem_filter he2
    refine ⟨by simpa using this, ⟨p0, hp0, ?_, List.mem_of_mem_filter he2⟩⟩
    rw [← hqw, ← hp0q]
  rcases h with ⟨q, hq, hqw, hqe⟩
  by_cases hany : wss2.any (fun p => p.1 = toString wsId)
  · rw [if_pos hany] at hq
    rcases List.mem_map.mp hq with ⟨p1, hp1, hp1q⟩
    by_cases hp1k : p1.1 = toString wsId
    · rw [if_pos hp1k] at hp1q
      rw [← hp1q] at hqw
      exact absurd (hqw ▸ hp1k) hw
    · rw [if_neg hp1k] at hp1q
      exact main p1 hp1 (hp1q ▸ hqw) (hp1q ▸ hqe)
  · rw [if_neg hany] at hq
    rcases List.mem_append.mp hq with hq | hq
    · exact main q hq hqw hqe
    · simp only [List.mem_singleton] at hq
      rw [hq] at hqw
      exact absurd hqw.symm hw

/-- Folding upserts at the file level is folding them at the boot level. -/
theorem bootOf_upsertCalls (bootId : String)
    (calls : List (String × String × Int × List PositionEntry))
    (data : PositionsFile) :
    bootOf (upsertCalls bootId calls data) bootId =
      calls.foldl (fun b c => upsertBoot c.2.1 c.2.2.1 c.2.2.2 c.1 b)
        (bootOf data bootId) := by
  induction calls generalizing data with
  | nil => rfl
  | cons c calls ih =>
    simp only [upsertCalls, List.foldl_cons]
    have h := ih (upsert_entries bootId c.1 c.2.1 c.2.2.1 c.2.2.2 data)
    simp only [upsertCalls] at h
    rw [h, bootOf_upsert_entries]

/-- The at-most-once invariant is preserved along any sequence of upserts
whose individual calls carry pairwise distinct ids. -/
theorem occCount_le_one_foldl
    (calls : List (String × String × Int × List PositionEntry)) (b : BootData)
    (hnd : (b.workspaces.map Prod.fst).Nodup)
    (hocc : ∀ i, occCount b i ≤ 1)
    (hcalls : ∀ c ∈ calls, ((c.2.2.2).map (fun e => e.id)).Nodup) :
    ∀ i, occCount
      (calls.foldl (fun b c => upsertBoot c.2.1 c.2.2.1 c.2.2.2 c.1 b) b) i ≤ 1 := by
  induction calls generalizing b with
  | nil => exact hocc
  | cons c calls ih =>
    simp only [List.foldl_cons]
    apply ih
    · exact upsertBoot_keys_nodup _ _ _ _ _ hnd
    · intro i
      rw [occCount_upsertBoot _ _ _ _ _ _ hnd]
      by_cases hi : i ∈ (c.2.2.2).map (fun e => e.id)
      · rw [if_pos hi, length_filter_id_eq_one (hcalls c (by simp)) hi]
      · rw [if_neg hi, length_filter_id_eq_zero hi]
        simpa using hocc i
    · intro c' hc'
      exact hcalls c' (List.mem_cons_of_mem _ hc')

/-- C2.  (1) Starting from a store with no record for the current boot, any
sequence of upserts with pairwise-distinct ids per call leaves each stable
id in at most one workspace entry of the boot's record; (2) upserting the
same `(app, workspaceId, entries)` twice leaves exactly one entry per
written id; (3) upserting `[X]` into workspace 1 and then workspace 2 of
the same boot leaves `X` listed in workspace 2 and not in workspace 1. -/
theorem upsert_entries_id_in_one_workspace :
    (∀ (bootId : String) (data : PositionsFile)
        (calls : List (String × String × Int × List PositionEntry)),
      data.boots.lookup bootId = none →
      (∀ c ∈ calls, ((c.2.2.2).map (fun e => e.id)).Nodup) →
      ∀ i, occCount (bootOf (upsertCalls bootId calls data) bootId) i ≤ 1) ∧
    (∀ (bootId now1 now2 app : String) (wsId : Int)
        (es : List PositionEntry) (data : PositionsFile),
      ((es.map (fun e => e.id)).Nodup) →
      (((bootOf data bootId).workspaces.map Prod.fst).Nodup) →
      ∀ i ∈ es.map (fun e => e.id),
        occCount (bootOf (upsert_entries bootId now2 app wsId es
          (upsert_entries bootId now1 app wsId es data)) bootId) i = 1) ∧
    (∀ (bootId now1 now2 app : String) (X : PositionEntry)
        (data : PositionsFile),
      entryInWs (bootOf (upsert_entries bootId now2 app 2 [X]
          (upsert_entries bootId now1 app 1 [X] data)) bootId) (toString (2 : Int)) X ∧
      ¬ entryInWs (bootOf (upsert_entries bootId now2 app 2 [X]
          (upsert_entries bootId now1 app 1 [X] data)) bootId) (toString (1 : Int)) X) := by
  refine ⟨?_, ?_, ?_⟩
  · intro bootId data calls hnone hcalls i
    rw [bootOf_upsertCalls]
    have hinit : bootOf data bootId = BootData.init := by
      simp [bootOf, hnone]
    rw [hinit]
    exact occCount_le_one_foldl calls BootData.init (by simp [BootData.init])
      (fun i => by simp [occCount, BootData.init]) hcalls i
  · intro bootId now1 now2 app wsId es data hes hnd i hi
    rw [bootOf_upsert_entries, bootOf_upsert_entries]
    rw [occCount_upsertBoot _ _ _ _ _ _ (upsertBoot_keys_nodup _ _ _ _ _ hnd)]
    rw [if_pos hi, length_filter_id_eq_one hes hi]
  · intro bootId now1 now2 app X data
    rw [bootOf_upsert_entries]
    constructor
    · exact entryInWs_upsertBoot_target _ _ _ _ _ (by simp)
    · intro h
      have hne : toString (1 : Int) ≠ toString (2 : Int) := by decide
      have := entryInWs_upsertBoot_other app 2 [X] now2 _ hne h
      exact this.1 (by simp)

/-- Witness for C2 at a concrete store: one call writing `tmux:a`, a double
upsert, and the ws-1-then-ws-2 move. -/
theorem upsert_entries_id_in_one_workspace_witness :
    (occCount (bootOf (upsertCalls "b"
        [("t1", "tmux", 1, [⟨"tmux:a", 1, 7, 50⟩])] ⟨1, []⟩) "b") "tmux:a" ≤ 1) ∧
    (occCount (bootOf (upsert_entries "b" "t2" "tmux" 1 [⟨"tmux:a", 1, 7, 50⟩]
        (upsert_entries "b" "t1" "tmux" 1 [⟨"tmux:a", 1, 7, 50⟩] ⟨1, []⟩)) "b")
        "tmux:a" = 1) ∧
    (entryInWs (bootOf (upsert_entries "b" "t2" "tmux" 2 [⟨"tmux:a", 1, 7, 50⟩]
        (upsert_entries "b" "t1" "tmux" 1 [⟨"tmux:a", 1, 7, 50⟩] ⟨1, []⟩)) "b")
        (toString (2 : Int)) ⟨"tmux:a", 1, 7, 50⟩ ∧
      ¬ entryInWs (bootOf (upsert_entries "b" "t2" "tmux" 2 [⟨"tmux:a", 1, 7, 50⟩]
        (upsert_entries "b" "t1" "tmux" 1 [⟨"tmux:a", 1, 7, 50⟩] ⟨1, []⟩)) "b")
        (toString (1 : Int)) ⟨"tmux:a", 1, 7, 50⟩) :=
  ⟨upsert_entries_id_in_one_workspace.1 "b" ⟨1, []⟩
      [("t1", "tmux", 1, [⟨"tmux:a", 1, 7, 50⟩])] (by decide)
      (by intro c hc
          simp only [List.mem_singleton] at hc
          rw [hc]
          decide) "tmux:a",
    upsert_entries_id_in_one_workspace.2.1 "b" "t1" "t2" "tmux" 1
      [⟨"tmux:a", 1, 7, 50⟩] ⟨1, []⟩ (by decide) (by decide) "tmux:a" (by decide),
    upsert_entries_id_in_one_workspace.2.2 "b" "t1" "t2" "tmux"
      ⟨"tmux:a", 1, 7, 50⟩ ⟨1, []⟩⟩

/-! ## C4: latest-position lookup -/

/-- Python's `<` on `str`: code-point lexicographic comparison.  Stated on
the underlying character lists so that it evaluates; it agrees with Lean's
`String` order (`strLt_iff`). -/
def strLt (s t : String) : Bool :=
  decide (s.toList < t.toList)

theorem strLt_iff {s t : String} : strLt s t = true ↔ s < t := by
  rw [strLt, decide_eq_true_iff, String.lt_iff_toList_lt]

theorem strLt_eq_false_iff {s t : String} : strLt s t = false ↔ t ≤ s := by
  rw [← Bool.not_eq_true, strLt_iff, not_lt]

/-- `PositionResult` from `positions.py`. -/
structure PositionResult where
  workspace_id : Int
  width : Int
deriving DecidableEq, Repr

/-- Decimal digits to a natural number. -/
def digitsToNat (l : List Char) : Nat :=
  l.foldl (fun n c => n * 10 + (c.toNat - ('0').toNat)) 0

/-- Python `int(ws_key)`.  `lookup_latest_position` only applies it to keys
produced by `str(workspace_id)` — an optional minus sign followed by
decimal digits; Python raises on any other key. -/
def strToInt (s : String) : Int :=
  match s.toList with
  | '-' :: ds => - (digitsToNat ds : Int)
  | ds => (digitsToNat ds : Int)

/-- The source's `latest_time is None or boot.updated_at > latest_time`
test, where the accumulator carries the current best time (if any). -/
def isNewerTime : Option String → String → Bool
  | none, _ => true
  | some u, t => strLt u t

/-- One entry of the scan in `lookup_latest_position`: record the entry if
its id matches and its boot is newer than the best so far.  The source
keeps `latest_time` and `latest_result` in two variables that are always
written together; the accumulator pairs them. -/
def lookupEntryStep (stableId wsKey t : String)
    (acc : Option (String × PositionResult)) (e : PositionEntry) :
    Option (String × PositionResult) :=
  if e.id = stableId ∧ isNewerTime (acc.map Prod.fst) t = true then
    some (t, ⟨strToInt wsKey, e.width⟩)
  else acc

/-- The scan of a list of workspaces in `lookup_latest_position`, with the
enclosing boot's `updated_at` as `t`. -/
def wsFold (stableId t : String) (wss : List (String × List PositionEntry))
    (acc : Option (String × PositionResult)) :
    Option (String × PositionResult) :=
  wss.foldl
    (fun acc wsp => wsp.2.foldl (lookupEntryStep stableId wsp.1 t) acc) acc

/-- The scan of one boot's workspaces in `lookup_latest_position`. -/
def lookupBootStep (stableId : String)
    (acc : Option (String × PositionResult)) (boot : BootData) :
    Option (String × PositionResult) :=
  wsFold stableId boot.updated_at boot.workspaces acc

/-- `lookup_latest_position` from `positions.py`: scan all boots' all
workspaces for entries matching `stable_id`, keeping the one from the boot
with the greatest `updated_at`. -/
def lookup_latest_position (stableId : String) (data : PositionsFile) :
    Option PositionResult :=
  (data.boots.foldl (fun acc bp => lookupBootStep stableId acc bp.2)
    none).map Prod.snd

/-- Some workspace of `boot` lists an entry with the given stable id. -/
def bootContains (stableId : String) (boot : BootData) : Prop :=
  ∃ p ∈ boot.workspaces, ∃ e ∈ p.2, e.id = stableId

instance (stableId : String) (boot : BootData) :
    Decidable (bootContains stableId boot) := by
  unfold bootContains
  infer_instance

/-- `r` is the workspace/width of some entry of `boot` matching the id. -/
def resultFromBoot (stableId : String) (boot : BootData)
    (r : PositionResult) : Prop :=
  ∃ p ∈ boot.workspaces, ∃ e ∈ p.2,
    e.id = stableId ∧ r = ⟨strToInt p.1, e.width⟩

theorem entfold_stuck (stableId wsKey t : String) (es : List PositionEntry)
    (acc : Option (String × PositionResult))
    (hstuck : isNewerTime (acc.map Prod.fst) t = false) :
    es.foldl (lookupEntryStep stableId wsKey t) acc = acc := by
  induction es with
  | nil => rfl
  | cons e es ih =>
    simp only [List.foldl_cons, lookupEntryStep, hstuck]
    rw [if_neg (by simp [hstuck])]
    exact ih

theorem entfold_no_match (stableId wsKey t : String)
    (es : List PositionEntry) (acc : Option (String × PositionResult))
    (hno : ∀ e ∈ es, e.id ≠ stableId) :
    es.foldl (lookupEntryStep stableId wsKey t) acc = acc := by
  induction es generalizing acc with
  | nil => rfl
  | cons e es ih =>
    simp only [List.foldl_cons, lookupEntryStep]
    rw [if_neg (by
      rintro ⟨he, -⟩
      exact hno e (by simp) he)]
    exact ih acc (fun e' he' => hno e' (List.mem_cons_of_mem _ he'))

theorem isNewerTime_self_lt (t : String) :
    isNewerTime (some t) t = false := by
  simpa [isNewerTime] using strLt_eq_false_iff.mpr le_rfl

theorem entfold_match (stableId wsKey t : String) (es : List PositionEntry)
    (acc : Option (String × PositionResult))
    (hnew : isNewerTime (acc.map Prod.fst) t = true)
    (hmatch : ∃ e ∈ es, e.id = stableId) :
    ∃ e ∈ es, e.id = stableId ∧
      es.foldl (lookupEntryStep stableId wsKey t) acc =
        some (t, ⟨strToInt wsKey, e.width⟩) := by
  induction es generalizing acc with
  | nil => rcases hmatch with ⟨e, he, -⟩; cases he
  | cons e es ih =>
    by_cases he : e.id = stableId
    · refine ⟨e, by simp, he, ?_⟩
      have hcond : e.id = stableId ∧ isNewerTime (acc.map Prod.fst) t = true :=
        ⟨he, hnew⟩
      simp only [List.foldl_cons, lookupEntryStep, if_pos hcond]
      exact entfold_stuck _ _ _ _ _ (isNewerTime_self_lt t)
    · have hmatch' : ∃ e' ∈ es, e'.id = stableId := by
        rcases hmatch with ⟨e', he', hid⟩
        rcases List.mem_cons.mp he' with h | h
        · exact absurd (h ▸ hid) he
        · exact ⟨e', h, hid⟩
      simp only [List.foldl_cons, lookupEntryStep]
      rw [if_neg (by rintro ⟨h, -⟩; exact he h)]
      rcases ih acc hnew hmatch' with ⟨e', he', hid, hres⟩
      exact ⟨e', List.mem_cons_of_mem _ he', hid, hres⟩

theorem wsfold_stuck (stableId t : String)
    (wss : List (String × List PositionEntry))
    (acc : Option (String × PositionResult))
    (hstuck : isNewerTime (acc.map Prod.fst) t = false) :
    wsFold stableId t wss acc = acc := by
  unfold wsFold
  induction wss with
  | nil => rfl
  | cons p wss ih =>
    simp only [List.foldl_cons]
    rw [entfold_stuck _ _ _ _ _ hstuck]
    exact ih

theorem wsfold_no_match (stableId t : String)
    (wss : List (String × List PositionEntry))
    (acc : Option (String × PositionResult))
    (hno : ∀ p ∈ wss, ∀ e ∈ p.2, e.id ≠ stableId) :
    wsFold stableId t wss acc = acc := by
  unfold wsFold
  induction wss generalizing acc with
  | nil => rfl
  | cons p wss ih =>
    simp only [List.foldl_cons]
    rw [entfold_no_match _ _ _ _ _ (fun e he => hno p (by simp) e he)]
    exact ih acc (fun q hq e he => hno q (List.mem_cons_of_mem _ hq) e he)

theorem wsfold_match (stableId t : String)
    (wss : List (String × List PositionEntry))
    (acc : Option (String × PositionResult))
    (hnew : isNewerTime (acc.map Prod.fst) t = true)
    (hmatch : ∃ p ∈ wss, ∃ e ∈ p.2, e.id = stableId) :
    ∃ p ∈ wss, ∃ e ∈ p.2, e.id = stableId ∧
      wsFold stableId t wss acc = some (t, ⟨strToInt p.1, e.width⟩) := by
  induction wss generalizing acc with
  | nil => rcases hmatch with ⟨p, hp, -⟩; cases hp
  | cons p wss ih =>
    by_cases hp : ∃ e ∈ p.2, e.id = stableId
    · rcases entfold_match stableId p.1 t p.2 acc hnew hp with ⟨e, he, hid, hres⟩
      refine ⟨p, by simp, e, he, hid, ?_⟩
      unfold wsFold
      simp only [List.foldl_cons]
      rw [hres]
      exact wsfold_stuck _ _ _ _ (isNewerTime_self_lt t)
    · have hmatch' : ∃ q ∈ wss, ∃ e ∈ q.2, e.id = stableId := by
        rcases hmatch with ⟨q, hq, e, he, hid⟩
        rcases List.mem_cons.mp hq with h | h
        · exact absurd ⟨e, h ▸ he, hid⟩ hp
        · exact ⟨q, h, e, he, hid⟩
      rcases ih acc hnew hmatch' with ⟨q, hq, e, he, hid, hres⟩
      refine ⟨q, List.mem_cons_of_mem _ hq, e, he, hid, ?_⟩
      unfold wsFold at hres ⊢
      simp only [List.foldl_cons]
      rw [entfold_no_match _ _ _ _ _ (fun e' he' hid' => hp ⟨e', he', hid'⟩)]
      exact hres

theorem bootstep_cases (stableId : String) (boot : BootData)
    (acc : Option (String × PositionResult)) :
    (lookupBootStep stableId acc boot = acc ∧
      (¬ bootContains stableId boot ∨
        isNewerTime (acc.map Prod.fst) boot.updated_at = false)) ∨
    (bootContains stableId boot ∧
      isNewerTime (acc.map Prod.fst) boot.updated_at = true ∧
      ∃ r, lookupBootStep stableId acc boot = some (boot.updated_at, r) ∧
        resultFromBoot stableId boot r) := by
  by_cases hnew : isNewerTime (acc.map Prod.fst) boot.updated_at = true
  · by_cases hc : bootContains stableId boot
    · rcases wsfold_match stableId boot.updated_at boot.workspaces acc hnew hc
        with ⟨p, hp, e, he, hid, hres⟩
      exact Or.inr ⟨hc, hnew, ⟨strToInt p.1, e.width⟩, hres,
        p, hp, e, he, hid, rfl⟩
    · refine Or.inl ⟨?_, Or.inl hc⟩
      apply wsfold_no_match
      intro p hp e he hid
      exact hc ⟨p, hp, e, he, hid⟩
  · have hfalse : isNewerTime (acc.map Prod.fst) boot.updated_at = false :=
      Bool.not_eq_true _ ▸ (by simpa using hnew)
    exact Or.inl ⟨wsfold_stuck _ _ _ _ hfalse, Or.inr hfalse⟩

theorem bootsFold_spec (stableId : String) (bs : List (String × BootData))
    (acc : Option (String × PositionResult)) :
    ((bs.foldl (fun acc bp => lookupBootStep stableId acc bp.2) acc = acc ∨
      ∃ bp ∈ bs, bootContains stableId bp.2 ∧
        ∃ r, bs.foldl (fun acc bp => lookupBootStep stableId acc bp.2) acc =
            some (bp.2.updated_at, r) ∧ resultFromBoot stableId bp.2 r) ∧
     (∀ t₀ x, acc = some (t₀, x) →
        ∃ t r, bs.foldl (fun acc bp => lookupBootStep stableId acc bp.2) acc =
            some (t, r) ∧ t₀ ≤ t) ∧
     (∀ bp ∈ bs, bootContains stableId bp.2 →
        ∃ t r, bs.foldl (fun acc bp => lookupBootStep stableId acc bp.2) acc =
            some (t, r) ∧ bp.2.updated_at ≤ t)) := by
  induction bs generalizing acc with
  | nil =>
    refine ⟨Or.inl rfl, ?_, ?_⟩
    · intro t₀ x h
      exact ⟨t₀, x, h, le_rfl⟩
    · intro bp hbp
      cases hbp
  | cons bp bs ih =>
    rcases bootstep_cases stableId bp.2 acc with ⟨heq, hwhy⟩ |
      ⟨hc, hnew, r, heq, hprov⟩
    · have ihacc := ih acc
      refine ⟨?_, ?_, ?_⟩
      · rcases ihacc.1 with h | ⟨bp', hbp', hc', r', hres', hprov'⟩
        · exact Or.inl (by simp only [List.foldl_cons, heq]; exact h)
        · exact Or.inr ⟨bp', List.mem_cons_of_mem _ hbp', hc', r',
            by simp only [List.foldl_cons, heq]; exact hres', hprov'⟩
      · intro t₀ x hacc
        rcases ihacc.2.1 t₀ x hacc with ⟨t, r', hres, hle⟩
        exact ⟨t, r', by simp only [List.foldl_cons, heq]; exact hres, hle⟩
      · intro bp' hbp' hc'
        rcases List.mem_cons.mp hbp' with h | h
        · subst h
          rcases hwhy with hnc | hfalse
          · exact absurd hc' hnc
          · have hexists : ∃ t₀ x, acc = some (t₀, x) := by
              cases hacc : acc with
              | none => rw [hacc] at hfalse; simp [isNewerTime] at hfalse
              | some p => exact ⟨p.1, p.2, by simp [hacc]⟩
            rcases hexists with ⟨t₀, x, hacc⟩
            have hle : bp'.2.updated_at ≤ t₀ := by
              rw [hacc] at hfalse
              simpa [isNewerTime, strLt_eq_false_iff] using hfalse
            rcases ihacc.2.1 t₀ x hacc with ⟨t, r', hres, hle'⟩
            exact ⟨t, r', by simp only [List.foldl_cons, heq]; exact hres,
              le_trans hle hle'⟩
        · rcases ihacc.2.2 bp' h hc' with ⟨t, r', hres, hle⟩
          exact ⟨t, r', by simp only [List.foldl_cons, heq]; exact hres, hle⟩
    · have ihacc' := ih (some (bp.2.updated_at, r))
      have hsome : ∃ t' r',
          bs.foldl (fun acc bp => lookupBootStep stableId acc bp.2)
            (some (bp.2.updated_at, r)) = some (t', r') ∧
          bp.2.updated_at ≤ t' :=
        ihacc'.2.1 bp.2.updated_at r rfl
      refine ⟨?_, ?_, ?_⟩
      · rcases ihacc'.1 with h | ⟨bp', hbp', hc', r', hres', hprov'⟩
        · exact Or.inr ⟨bp, by simp, hc, r,
            by simp only [List.foldl_cons, heq]; exact h, hprov⟩
        · exact Or.inr ⟨bp', List.mem_cons_of_mem _ hbp', hc', r',
            by simp only [List.foldl_cons, heq]; exact hres', hprov'⟩
      · intro t₀ x hacc
        rcases hsome with ⟨t', r', hres, hle⟩
        have ht₀ : t₀ ≤ bp.2.updated_at := by
          rw [hacc] at hnew
          exact le_of_lt (strLt_iff.mp (by simpa [isNewerTime] using hnew))
        exact ⟨t', r', by simp only [List.foldl_cons, heq]; exact hres,
          le_trans ht₀ hle⟩
      · intro bp' hbp' hc'
        rcases List.mem_cons.mp hbp' with h | h
        · subst h
          rcases hsome with ⟨t', r', hres, hle⟩
          exact ⟨t', r', by simp only [List.foldl_cons, heq]; exact hres, hle⟩
        · rcases ihacc'.2.2 bp' h hc' with ⟨t', r', hres, hle⟩
          exact ⟨t', r', by simp only [List.foldl_cons, heq]; exact hres, hle⟩

/-- C4.  `lookup_latest_position` returns `none` exactly when no boot lists
the id; otherwise the result is the workspace/width of an entry matching
the id taken from a boot whose `updated_at` is lexicographically greatest
among all boots listing the id. -/
theorem lookup_latest_position_spec (stableId : String)
    (data : PositionsFile) :
    (lookup_latest_position stableId data = none ↔
      ∀ bp ∈ data.boots, ¬ bootContains stableId bp.2) ∧
    (∀ r, lookup_latest_position stableId data = some r →
      ∃ bp ∈ data.boots, resultFromBoot stableId bp.2 r ∧
        ∀ bp' ∈ data.boots, bootContains stableId bp'.2 →
          bp'.2.updated_at ≤ bp.2.updated_at) := by
  have hspec := bootsFold_spec stableId data.boots none
  constructor
  · constructor
    · intro hnone bp hbp hc
      rcases hspec.2.2 bp hbp hc with ⟨t, r, hres, -⟩
      rw [lookup_latest_position, hres] at hnone
      cases hnone
    · intro hno
      rcases hspec.1 with h | ⟨bp, hbp, hc, -⟩
      · rw [lookup_latest_position, h]
        rfl
      · exact absurd hc (hno bp hbp)
  · intro r hr
    rw [lookup_latest_position] at hr
    rcases Option.map_eq_some'.mp hr with ⟨⟨t, r'⟩, hres, hr'⟩
    cases hr'
    rcases hspec.1 with h | ⟨bp, hbp, hc, r₀, hres₀, hprov₀⟩
    · rw [h] at hres
      cases hres
    · rw [hres₀] at hres
      injection hres with hres
      injection hres with ht hr₀
      refine ⟨bp, hbp, hr₀ ▸ hprov₀, ?_⟩
      intro bp' hbp' hc'
      rcases hspec.2.2 bp' hbp' hc' with ⟨t', r'', hres', hle⟩
      rw [hres₀] at hres'
      injection hres' with hres'
      injection hres' with ht' hsnd
      rw [ht']
      exact hle

/-- Example store for C4: two boots both listing id `a`, the second newer. -/
def lookupExample : PositionsFile :=
  ⟨1,
    [("b1", ⟨"2024-01-01T00:00:00+00:00", ["tmux"],
        [("1", [⟨"a", 1, 5, 30⟩])]⟩),
     ("b2", ⟨"2024-01-02T00:00:00+00:00", ["tmux"],
        [("2", [⟨"a", 2, 6, 40⟩])]⟩)]⟩

/-- Witness for C4: on `lookupExample` the result for `a` comes from the
newest boot listing it, and an unknown id yields `none`. -/
theorem lookup_latest_position_spec_witness :
    (∃ bp ∈ lookupExample.boots, resultFromBoot "a" bp.2 ⟨2, 40⟩ ∧
      ∀ bp' ∈ lookupExample.boots, bootContains "a" bp'.2 →
        bp'.2.updated_at ≤ bp.2.updated_at) ∧
    lookup_latest_position "zzz" lookupExample = none :=
  ⟨(lookup_latest_position_spec "a" lookupExample).2 ⟨2, 40⟩ (by decide),
   (lookup_latest_position_spec "zzz" lookupExample).1.mpr (by decide)⟩

/-! ## C3: predecessor search -/

/-- `all_apps` from `find_predecessors`: the known application families.
The source writes a Python set literal; since the per-family results are
accumulated into a set, iteration order does not affect the result. -/
def allApps : List String := ["tmux", "mosh", "librewolf"]

/-- The `continue` chain of `find_predecessors`: a boot qualifies for the
pair `(thisApp, otherApp)` if it lists both apps and its workspace `wsKey`
lists `stableId`. -/
def isCandidateB (thisApp otherApp wsKey stableId : String)
    (boot : BootData) : Bool :=
  decide (thisApp ∈ boot.apps) && decide (otherApp ∈ boot.apps) &&
    (match boot.workspaces.lookup wsKey with
     | some es => es.any (fun e => e.id = stableId)
     | none => false)

/-- The qualification test as a proposition. -/
def isCandidate (thisApp otherApp wsKey stableId : String)
    (boot : BootData) : Prop :=
  thisApp ∈ boot.apps ∧ otherApp ∈ boot.apps ∧
    ∃ es, boot.workspaces.lookup wsKey = some es ∧ ∃ e ∈ es, e.id = stableId

theorem isCandidateB_iff {thisApp otherApp wsKey stableId : String}
    {boot : BootData} :
    isCandidateB thisApp otherApp wsKey stableId boot = true ↔
      isCandidate thisApp otherApp wsKey stableId boot := by
  unfold isCandidateB isCandidate
  cases h : boot.workspaces.lookup wsKey with
  | none =>
    simp only [h, Bool.and_eq_true, decide_eq_true_eq]
    constructor
    · rintro ⟨-, hfalse⟩
      cases hfalse
    · rintro ⟨-, -, es, hes, -⟩
      cases hes
  | some es =>
    simp only [h, Bool.and_eq_true, decide_eq_true_eq, List.any_eq_true]
    constructor
    · rintro ⟨⟨h1, h2⟩, e, he, hid⟩
      exact ⟨h1, h2, es, rfl, e, he, hid⟩
    · rintro ⟨h1, h2, es', hes', e, he, hid⟩
      cases hes'
      exact ⟨⟨h1, h2⟩, e, he, by simpa using hid⟩

/-- One step of the newest-boot search: keep the boot if it qualifies and
is newer than the best so far. -/
def newestStep (thisApp otherApp wsKey stableId : String)
    (best : Option BootData) (bp : String × BootData) : Option BootData :=
  if isCandidateB thisApp otherApp wsKey stableId bp.2 &&
      isNewerTime (best.map (fun b => b.updated_at)) bp.2.updated_at then
    some bp.2
  else best

/-- The inner loop of `find_predecessors` for one `other_app`: the newest
boot qualifying for the pair.  The source keeps `best_time` and
`best_boot` in two variables that are always written together and with
`best_time = best_boot.updated_at`; the accumulator keeps the boot. -/
def newestBoot (thisApp otherApp wsKey stableId : String)
    (data : PositionsFile) : Option BootData :=
  data.boots.foldl (newestStep thisApp otherApp wsKey stableId) none

/-- Collect the predecessors inside one chosen boot: locate the first entry
carrying `stableId` (the source's index-search loop with `break`) and take
the ids of the entries with strictly smaller `index`. -/
def predsFromBoot (stableId wsKey : String) (boot : BootData) :
    Finset String :=
  match boot.workspaces.lookup wsKey with
  | none => ∅
  | some es =>
    match es.find? (fun e => e.id = stableId) with
    | none => ∅
    | some e0 =>
      ((es.filter (fun e => e.index < e0.index ∧ e.id ≠ stableId)).map
        (fun e => e.id)).toFinset

/-- `find_predecessors` from `positions.py`. -/
def find_predecessors (stableId thisApp : String) (workspaceId : Int)
    (data : PositionsFile) : Finset String :=
  allApps.foldl
    (fun preds otherApp =>
      match newestBoot thisApp otherApp (toString workspaceId) stableId data with
      | none => preds
      | some boot => preds ∪ predsFromBoot stableId (toString workspaceId) boot)
    ∅

/-- The claim's reading of `find_predecessors`: the same computation but
looping only over the application families *other than* `thisApp`. -/
def specFindPredecessors (stableId thisApp : String) (workspaceId : Int)
    (data : PositionsFile) : Finset String :=
  (allApps.filter (fun a => a ≠ thisApp)).foldl
    (fun preds otherApp =>
      match newestBoot thisApp otherApp (toString workspaceId) stableId data with
      | none => preds
      | some boot => preds ∪ predsFromBoot stableId (toString workspaceId) boot)
    ∅

/-- `b` is the newest boot of the store qualifying for the app pair: it is
a qualifying boot of the store and no qualifying boot is newer. -/
def isChosenNewest (thisApp otherApp wsKey stableId : String)
    (data : PositionsFile) (b : BootData) : Prop :=
  (∃ bp ∈ data.boots, bp.2 = b) ∧
    isCandidate thisApp otherApp wsKey stableId b ∧
    ∀ bp ∈ data.boots, isCandidate thisApp otherApp wsKey stableId bp.2 →
      bp.2.updated_at ≤ b.updated_at

theorem newestFold_spec (thisApp otherApp wsKey stableId : String)
    (bs : List (String × BootData)) (acc : Option BootData) :
    ((bs.foldl (newestStep thisApp otherApp wsKey stableId) acc = acc ∨
      ∃ bp ∈ bs,
        bs.foldl (newestStep thisApp otherApp wsKey stableId) acc = some bp.2 ∧
          isCandidate thisApp otherApp wsKey stableId bp.2) ∧
     (∀ b₀, acc = some b₀ →
        ∃ b, bs.foldl (newestStep thisApp otherApp wsKey stableId) acc = some b ∧
          b₀.updated_at ≤ b.updated_at) ∧
     (∀ bp ∈ bs, isCandidate thisApp otherApp wsKey stableId bp.2 →
        ∃ b, bs.foldl (newestStep thisApp otherApp wsKey stableId) acc = some b ∧
          bp.2.updated_at ≤ b.updated_at)) := by
  induction bs generalizing acc with
  | nil =>
    refine ⟨Or.inl rfl, ?_, ?_⟩
    · intro b₀ h
      exact ⟨b₀, h, le_rfl⟩
    · intro bp hbp
      cases hbp
  | cons bp bs ih =>
    by_cases hstep : (isCandidateB thisApp otherApp wsKey stableId bp.2 &&
        isNewerTime (acc.map (fun b => b.updated_at)) bp.2.updated_at) = true
    · have hcand : isCandidate thisApp otherApp wsKey stableId bp.2 :=
        isCandidateB_iff.mp (Bool.and_eq_true _ _ ▸ hstep).1
      have hnew :
          isNewerTime (acc.map (fun b => b.updated_at)) bp.2.updated_at = true :=
        (Bool.and_eq_true _ _ ▸ hstep).2
      have hfold : (bp :: bs).foldl (newestStep thisApp otherApp wsKey stableId) acc =
          bs.foldl (newestStep thisApp otherApp wsKey stableId) (some bp.2) := by
        rw [List.foldl_cons]
        unfold newestStep
        rw [if_pos hstep]
      have ihacc := ih (some bp.2)
      have hsome : ∃ b,
          bs.foldl (newestStep thisApp otherApp wsKey stableId) (some bp.2) =
            some b ∧ bp.2.updated_at ≤ b.updated_at := ihacc.2.1 bp.2 rfl
      refine ⟨?_, ?_, ?_⟩
      · rcases ihacc.1 with h | ⟨bp', hbp', hres', hc'⟩
        · exact Or.inr ⟨bp, by simp, by rw [hfold]; exact h, hcand⟩
        · exact Or.inr ⟨bp', List.mem_cons_of_mem _ hbp',
            by rw [hfold]; exact hres', hc'⟩
      · intro b₀ hacc
        rcases hsome with ⟨b, hres, hle⟩
        have hb₀ : b₀.updated_at ≤ bp.2.updated_at := by
          rw [hacc] at hnew
          exact le_of_lt (strLt_iff.mp (by simpa [isNewerTime] using hnew))
        exact ⟨b, by rw [hfold]; exact hres, le_trans hb₀ hle⟩
      · intro bp' hbp' hc'
        rcases List.mem_cons.mp hbp' with h | h
        · subst h
          rcases hsome with ⟨b, hres, hle⟩
          exact ⟨b, by rw [hfold]; exact hres, hle⟩
        · rcases ihacc.2.2 bp' h hc' with ⟨b, hres, hle⟩
          exact ⟨b, by rw [hfold]; exact hres, hle⟩
    · have hfold : (bp :: bs).foldl (newestStep thisApp otherApp wsKey stableId) acc =
          bs.foldl (newestStep thisApp otherApp wsKey stableId) acc := by
        rw [List.foldl_cons]
        unfold newestStep
        rw [if_neg hstep]
      have ihacc := ih acc
      refine ⟨?_, ?_, ?_⟩
      · rcases ihacc.1 with h | ⟨bp', hbp', hres', hc'⟩
        · exact Or.inl (by rw [hfold]; exact h)
        · exact Or.inr ⟨bp', List.mem_cons_of_mem _ hbp',
            by rw [hfold]; exact hres', hc'⟩
      · intro b₀ hacc
        rcases ihacc.2.1 b₀ hacc with ⟨b, hres, hle⟩
        exact ⟨b, by rw [hfold]; exact hres, hle⟩
      · intro bp' hbp' hc'
        rcases List.mem_cons.mp hbp' with h | h
        · subst h
          have hnotnew :
              isNewerTime (acc.map (fun b => b.updated_at)) bp'.2.updated_at =
                false := by
            cases h : isNewerTime (acc.map (fun b => b.updated_at))
                bp'.2.updated_at with
            | false => rfl
            | true =>
              exact absurd (by
                rw [Bool.and_eq_true]
                exact ⟨isCandidateB_iff.mpr hc', h⟩) hstep
          have hexists : ∃ b₀, acc = some b₀ := by
            cases hacc : acc with
            | none => rw [hacc] at hnotnew; simp [isNewerTime] at hnotnew
            | some b₀ => exact ⟨b₀, rfl⟩
          rcases hexists with ⟨b₀, hacc⟩
          have hle : bp'.2.updated_at ≤ b₀.updated_at := by
            rw [hacc] at hnotnew
            simpa [isNewerTime, strLt_eq_false_iff] using hnotnew
          rcases ihacc.2.1 b₀ hacc with ⟨b, hres, hle'⟩
          exact ⟨b, by rw [hfold]; exact hres, le_trans hle hle'⟩
        · rcases ihacc.2.2 bp' h hc' with ⟨b, hres, hle⟩
          exact ⟨b, by rw [hfold]; exact hres, hle⟩

theorem newestBoot_none_iff (thisApp otherApp wsKey stableId : String)
    (data : PositionsFile) :
    newestBoot thisApp otherApp wsKey stableId data = none ↔
      ∀ bp ∈ data.boots, ¬ isCandidate thisApp otherApp wsKey stableId bp.2 := by
  have h := newestFold_spec thisApp otherApp wsKey stableId data.boots none
  constructor
  · intro hnone bp hbp hc
    rcases h.2.2 bp hbp hc with ⟨b, hres, -⟩
    rw [newestBoot] at hnone
    rw [hnone] at hres
    cases hres
  · intro hno
    rcases h.1 with hres | ⟨bp, hbp, -, hc⟩
    · exact hres
    · exact absurd hc (hno bp hbp)

theorem newestBoot_some_chosen (thisApp otherApp wsKey stableId : String)
    (data : PositionsFile) (b : BootData)
    (h : newestBoot thisApp otherApp wsKey stableId data = some b) :
    isChosenNewest thisApp otherApp wsKey stableId data b := by
  have hs := newestFold_spec thisApp otherApp wsKey stableId data.boots none
  rw [newestBoot] at h
  rcases hs.1 with h0 | ⟨bp, hbp, hres, hc⟩
  · rw [h0] at h
    cases h
  · rw [h] at hres
    injection hres with hres
    refine ⟨⟨bp, hbp, hres.symm⟩, by rw [hres]; exact hc, ?_⟩
    intro bp' hbp' hc'
    rcases hs.2.2 bp' hbp' hc' with ⟨b', hres', hle⟩
    rw [h] at hres'
    injection hres' with hres''
    rw [hres'']
    exact hle

theorem newestBoot_eq_of_chosen (thisApp otherApp wsKey stableId : String)
    (data : PositionsFile) (b : BootData)
    (hnd : (data.boots.map (fun p => p.2.updated_at)).Nodup)
    (hch : isChosenNewest thisApp otherApp wsKey stableId data b) :
    newestBoot thisApp otherApp wsKey stableId data = some b := by
  rcases hch with ⟨⟨bp, hbp, hbpb⟩, hcand, hmax⟩
  have hs := newestFold_spec thisApp otherApp wsKey stableId data.boots none
  rcases hs.2.2 bp hbp (by rw [hbpb]; exact hcand) with ⟨b', hres, hle⟩
  rcases hs.1 with h0 | ⟨bp', hbp', hres', hc'⟩
  · rw [h0] at hres
    cases hres
  · rw [hres] at hres'
    injection hres' with hb'
    have h2 : bp'.2.updated_at ≤ b.updated_at := hmax bp' hbp' hc'
    have h1 : bp.2.updated_at ≤ bp'.2.updated_at := by
      rw [← hb']
      exact hle
    have heq : bp.2.updated_at = bp'.2.updated_at :=
      le_antisymm h1 (by rw [hbpb]; exact h2)
    have hbpeq : bp = bp' :=
      List.inj_on_of_nodup_map hnd hbp hbp' heq
    rw [newestBoot, hres, hb', ← hbpeq, hbpb]

/-- The contribution of one `other_app` to `find_predecessors`. -/
def predsForApp (stableId thisApp otherApp wsKey : String)
    (data : PositionsFile) : Finset String :=
  match newestBoot thisApp otherApp wsKey stableId data with
  | none => ∅
  | some boot => predsFromBoot stableId wsKey boot

theorem mem_foldl_union {β : Type} (g : β → Finset String) (l : List β)
    (init : Finset String) (x : String) :
    x ∈ l.foldl (fun s b => s ∪ g b) init ↔ x ∈ init ∨ ∃ b ∈ l, x ∈ g b := by
  induction l generalizing init with
  | nil => simp
  | cons b l ih =>
    simp only [List.foldl_cons, ih, Finset.mem_union, List.mem_cons]
    constructor
    · rintro (⟨h | h⟩ | ⟨b', hb', hx⟩)
      · exact Or.inl h
      · exact Or.inr ⟨b, Or.inl rfl, h⟩
      · exact Or.inr ⟨b', Or.inr hb', hx⟩
    · rintro (h | ⟨b', hb' | hb', hx⟩)
      · exact Or.inl (Or.inl h)
      · exact Or.inl (Or.inr (hb' ▸ hx))
      · exact Or.inr ⟨b', hb', hx⟩

theorem find_predecessors_eq_union (stableId thisApp : String)
    (workspaceId : Int) (data : PositionsFile) :
    find_predecessors stableId thisApp workspaceId data =
      allApps.foldl
        (fun s otherApp =>
          s ∪ predsForApp stableId thisApp otherApp (toString workspaceId) data)
        ∅ := by
  rw [find_predecessors]
  congr 1
  funext preds otherApp
  rw [predsForApp]
  cases h : newestBoot thisApp otherApp (toString workspaceId) stableId data with
  | none => simp
  | some boot => simp

theorem mem_predsFromBoot_iff {stableId wsKey : String} {boot : BootData}
    {x : String} :
    x ∈ predsFromBoot stableId wsKey boot ↔
      ∃ es, boot.workspaces.lookup wsKey = some es ∧
        ∃ e0, es.find? (fun e => e.id = stableId) = some e0 ∧
          ∃ e ∈ es, e.index < e0.index ∧ e.id ≠ stableId ∧ e.id = x := by
  rw [predsFromBoot]
  cases h : boot.workspaces.lookup wsKey with
  | none =>
    simp only [h, Finset.not_mem_empty, false_iff]
    rintro ⟨es, hes, -⟩
    cases hes
  | some es =>
    simp only [h]
    cases hf : es.find? (fun e => e.id = stableId) with
    | none =>
      simp only [hf, Finset.not_mem_empty, false_iff]
      rintro ⟨es', hes', e0, hf', -⟩
      cases hes'
      rw [hf] at hf'
      cases hf'
    | some e0 =>
      simp only [hf, List.mem_toFinset, List.mem_map, List.mem_filter,
        decide_eq_true_eq]
      constructor
      · rintro ⟨e, ⟨he, hcond⟩, hex⟩
        exact ⟨es, rfl, e0, hf, e, he, hcond.1, hcond.2, hex⟩
      · rintro ⟨es', hes', e0', hf', e, he, hlt, hne, hex⟩
        cases hes'
        rw [hf] at hf'
        cases hf'
        exact ⟨e, ⟨he, hlt, hne⟩, hex⟩

/-- C3 (amended).  With pairwise-distinct boot timestamps,
`find_predecessors` returns exactly the deduplicated union, over *every*
known application family (`thisApp` included), of the ids of entries whose
index is strictly below `stableId`'s index in the requested workspace of
the newest boot listing both `thisApp` and that family and whose workspace
lists `stableId`. -/
theorem find_predecessors_spec (stableId thisApp : String)
    (workspaceId : Int) (data : PositionsFile)
    (hnd : (data.boots.map (fun p => p.2.updated_at)).Nodup) :
    ∀ x, x ∈ find_predecessors stableId thisApp workspaceId data ↔
      ∃ otherApp ∈ allApps, ∃ b,
        isChosenNewest thisApp otherApp (toString workspaceId) stableId data b ∧
        ∃ es, b.workspaces.lookup (toString workspaceId) = some es ∧
          ∃ e0, es.find? (fun e => e.id = stableId) = some e0 ∧
            ∃ e ∈ es, e.index < e0.index ∧ e.id ≠ stableId ∧ e.id = x := by
  intro x
  rw [find_predecessors_eq_union, mem_foldl_union]
  constructor
  · rintro (h | ⟨otherApp, hmem, hx⟩)
    · cases h
    · rw [predsForApp] at hx
      cases hb : newestBoot thisApp otherApp (toString workspaceId) stableId
          data with
      | none =>
        rw [hb] at hx
        cases hx
      | some b =>
        rw [hb] at hx
        rcases mem_predsFromBoot_iff.mp hx with ⟨es, hes, e0, hf, e, he, hrest⟩
        exact ⟨otherApp, hmem,
          b, newestBoot_some_chosen _ _ _ _ _ _ hb,
          es, hes, e0, hf, e, he, hrest⟩
  · rintro ⟨otherApp, hmem, b, hch, es, hes, e0, hf, e, he, hrest⟩
    refine Or.inr ⟨otherApp, hmem, ?_⟩
    rw [predsForApp, newestBoot_eq_of_chosen _ _ _ _ _ _ hnd hch]
    exact mem_predsFromBoot_iff.mpr ⟨es, hes, e0, hf, e, he, hrest⟩

/-- The store of the spec §8 predecessor example: one boot with
`apps = {tmux, mosh}` and workspace 1 listing `tmux:a`, `mosh:b`,
`tmux:c` at indexes 1, 2, 3. -/
def predsExample : PositionsFile :=
  ⟨1,
    [("b1", ⟨"2024-01-01T00:00:00+00:00", ["tmux", "mosh"],
        [("1", [⟨"tmux:a", 1, 1, 50⟩, ⟨"mosh:b", 2, 2, 50⟩,
          ⟨"tmux:c", 3, 3, 50⟩])]⟩)]⟩

/-- A store refuting the claim as written: a single boot that lists only
the `tmux` family.  The spec's "every *other* application family" reading
would return `∅` for `tmux:c`, but the source also pairs `thisApp` with
itself and returns `{tmux:a}`. -/
def predsCounterStore : PositionsFile :=
  ⟨1,
    [("b1", ⟨"2024-01-01T00:00:00+00:00", ["tmux"],
        [("1", [⟨"tmux:a", 1, 1, 50⟩, ⟨"tmux:c", 3, 3, 50⟩])]⟩)]⟩

/-- Counterexample to C3 as stated: on `predsCounterStore` the code's
result contains `tmux:a` while the union over the families other than
`tmux` is empty. -/
theorem find_predecessors_counterexample :
    "tmux:a" ∈ find_predecessors "tmux:c" "tmux" 1 predsCounterStore ∧
      "tmux:a" ∉ specFindPredecessors "tmux:c" "tmux" 1 predsCounterStore ∧
      specFindPredecessors "tmux:c" "tmux" 1 predsCounterStore = ∅ := by
  refine ⟨?_, ?_, ?_⟩ <;> decide

/-- Witness for C3 on the spec §8 example: membership of `tmux:a` in the
predecessors of `tmux:c` satisfies the characterization, the full result
is `{tmux:a, mosh:b}`, and the first-in-order entry has no predecessors. -/
theorem find_predecessors_spec_witness :
    (∃ otherApp ∈ allApps, ∃ b,
        isChosenNewest "tmux" otherApp (toString (1 : Int)) "tmux:c"
          predsExample b ∧
        ∃ es, b.workspaces.lookup (toString (1 : Int)) = some es ∧
          ∃ e0, es.find? (fun e => e.id = "tmux:c") = some e0 ∧
            ∃ e ∈ es, e.index < e0.index ∧ e.id ≠ "tmux:c" ∧ e.id = "tmux:a") ∧
      find_predecessors "tmux:c" "tmux" 1 predsExample =
        {"tmux:a", "mosh:b"} ∧
      find_predecessors "tmux:a" "tmux" 1 predsExample = ∅ :=
  ⟨(find_predecessors_spec "tmux:c" "tmux" 1 predsExample (by decide)
      "tmux:a").mp (by decide),
   by decide, by decide⟩

/-! ## C5 / C8: ordering engine (`ordering.py`) -/

/-- The fields of `ipc.Window` that the ordering engine reads.  The other
fields (`app_id`, `pid`, tile sizes) never influence it; the tests build
windows with `column : int | None`. -/
structure Window where
  id : Int
  title : String
  workspace_id : Int
  column : Option Int
deriving DecidableEq, Repr

def SPACER_IDENTITY : String := "__spacer__"

/-- `get_predecessors` from `ordering.py`: the prefix of `saved_order`
before the first occurrence of `identity` (`list.index` finds the first
occurrence), or `[]` when the identity is not in the saved order. -/
def get_predecessors (identity : String) (savedOrder : List String) :
    List String :=
  if identity ∈ savedOrder then savedOrder.takeWhile (fun s => s ≠ identity)
  else []

/-- The predecessor list actually scanned by
`find_rightmost_predecessor`: the spacer is prepended as an implicit
predecessor unless already present. -/
def orderingCandidates (identity : String) (savedOrder : List String) :
    List String :=
  let predecessors := get_predecessors identity savedOrder
  if SPACER_IDENTITY ∈ predecessors then predecessors
  else SPACER_IDENTITY :: predecessors

/-- One iteration of the `find_rightmost_predecessor` loop over the pair
`(rightmost, rightmost_col)`. -/
def rightmostStep (currentWindows : List (String × Window))
    (acc : Option Window × Int) (predId : String) : Option Window × Int :=
  match currentWindows.lookup predId with
  | some w =>
    match w.column with
    | some c => if acc.2 < c then (some w, c) else acc
    | none => acc
  | none => acc

/-- `find_rightmost_predecessor` from `ordering.py`. -/
def find_rightmost_predecessor (identity : String) (savedOrder : List String)
    (currentWindows : List (String × Window)) : Option Window :=
  ((orderingCandidates identity savedOrder).foldl
    (rightmostStep currentWindows) (none, 0)).1

/-- `calculate_target_column` from `ordering.py`. -/
def calculate_target_column (identity : String) (savedOrder : List String)
    (currentWindows : List (String × Window)) : Int :=
  match find_rightmost_predecessor identity savedOrder currentWindows with
  | none => 1
  | some w =>
    match w.column with
    | none => 1
    | some c => c + 1

/-- A predecessor id resolved to the column of its live window, if any. -/
def resolveColumn (currentWindows : List (String × Window)) (predId : String) :
    Option Int :=
  (currentWindows.lookup predId).bind (fun w => w.column)

/-- The columns the claim's formula ranges over: the spacer's column when
the spacer is live, together with the columns of the saved predecessors
that resolve to a live window with a known column. -/
def candidateColumns (identity : String) (savedOrder : List String)
    (currentWindows : List (String × Window)) : List Int :=
  (SPACER_IDENTITY :: get_predecessors identity savedOrder).filterMap
    (resolveColumn currentWindows)

/-- The target column as the claim states it: one more than the maximum of
the candidate columns, or 1 when no candidate (spacer included) is live. -/
def specTargetColumn (identity : String) (savedOrder : List String)
    (currentWindows : List (String × Window)) : Int :=
  match (candidateColumns identity savedOrder currentWindows).max? with
  | none => 1
  | some m => m + 1

theorem le_foldl_max_seed (l : List Int) (a : Int) : a ≤ l.foldl max a := by
  induction l generalizing a with
  | nil => exact le_rfl
  | cons c l ih => exact le_trans (le_max_left a c) (ih (max a c))

theorem le_foldl_max_mem (l : List Int) (a c : Int) (h : c ∈ l) :
    c ≤ l.foldl max a := by
  induction l generalizing a with
  | nil => cases h
  | cons d l ih =>
    rcases List.mem_cons.mp h with h | h
    · exact le_trans (h ▸ le_max_right a d) (le_foldl_max_seed l (max a d))
    · exact ih (max a d) h

theorem foldl_max_le (l : List Int) (a b : Int) (ha : a ≤ b)
    (h : ∀ c ∈ l, c ≤ b) : l.foldl max a ≤ b := by
  induction l generalizing a with
  | nil => exact ha
  | cons c l ih =>
    exact ih (max a c) (max_le ha (h c (by simp)))
      (fun d hd => h d (List.mem_cons_of_mem _ hd))

theorem rightmostStep_lookup_none (currentWindows : List (String × Window))
    (acc : Option Window × Int) (pid : String)
    (hl : currentWindows.lookup pid = none) :
    rightmostStep currentWindows acc pid = acc := by
  unfold rightmostStep
  rw [hl]

theorem rightmostStep_col_none (currentWindows : List (String × Window))
    (acc : Option Window × Int) (pid : String) (w : Window)
    (hl : currentWindows.lookup pid = some w) (hc : w.column = none) :
    rightmostStep currentWindows acc pid = acc := by
  unfold rightmostStep
  rw [hl]
  show (match w.column with
    | some c => if acc.2 < c then (some w, c) else acc
    | none => acc) = acc
  rw [hc]

theorem rightmostStep_col_some (currentWindows : List (String × Window))
    (acc : Option Window × Int) (pid : String) (w : Window) (c : Int)
    (hl : currentWindows.lookup pid = some w) (hc : w.column = some c) :
    rightmostStep currentWindows acc pid =
      if acc.2 < c then (some w, c) else acc := by
  unfold rightmostStep
  rw [hl]
  show (match w.column with
    | some c => if acc.2 < c then (some w, c) else acc
    | none => acc) = _
  rw [hc]

theorem rightmost_fold_snd (currentWindows : List (String × Window))
    (ps : List String) (acc : Option Window × Int) :
    (ps.foldl (rightmostStep currentWindows) acc).2 =
      (ps.filterMap (resolveColumn currentWindows)).foldl max acc.2 := by
  induction ps generalizing acc with
  | nil => rfl
  | cons pid ps ih =>
    simp only [List.foldl_cons]
    cases hl : currentWindows.lookup pid with
    | none =>
      have hfm : List.filterMap (resolveColumn currentWindows) (pid :: ps) =
          List.filterMap (resolveColumn currentWindows) ps := by
        simp [List.filterMap_cons, resolveColumn, hl]
      rw [rightmostStep_lookup_none _ _ _ hl, hfm]
      exact ih acc
    | some w =>
      cases hc : w.column with
      | none =>
        have hfm : List.filterMap (resolveColumn currentWindows) (pid :: ps) =
            List.filterMap (resolveColumn currentWindows) ps := by
          simp [List.filterMap_cons, resolveColumn, hl, hc]
        rw [rightmostStep_col_none _ _ _ _ hl hc, hfm]
        exact ih acc
      | some c =>
        have hfm : List.filterMap (resolveColumn currentWindows) (pid :: ps) =
            c :: List.filterMap (resolveColumn currentWindows) ps := by
          simp [List.filterMap_cons, resolveColumn, hl, hc]
        rw [rightmostStep_col_some _ _ _ _ _ hl hc, hfm, List.foldl_cons]
        rcases lt_or_le acc.2 c with h | h
        · rw [if_pos h, ih]
          congr 1
          exact (max_eq_right (le_of_lt h)).symm
        · rw [if_neg (not_lt.mpr h), ih]
          congr 1
          exact (max_eq_left h).symm

theorem rightmost_fold_col (currentWindows : List (String × Window))
    (ps : List String) (acc : Option Window × Int)
    (hacc : ∀ w, acc.1 = some w → w.column = some acc.2) :
    ∀ w, (ps.foldl (rightmostStep currentWindows) acc).1 = some w →
      w.column = some (ps.foldl (rightmostStep currentWindows) acc).2 := by
  induction ps generalizing acc with
  | nil => exact hacc
  | cons pid ps ih =>
    simp only [List.foldl_cons]
    cases hl : currentWindows.lookup pid with
    | none =>
      rw [rightmostStep_lookup_none _ _ _ hl]
      exact ih acc hacc
    | some w' =>
      cases hc : w'.column with
      | none =>
        rw [rightmostStep_col_none _ _ _ _ hl hc]
        exact ih acc hacc
      | some c =>
        rw [rightmostStep_col_some _ _ _ _ _ hl hc]
        by_cases hlt : acc.2 < c
        · rw [if_pos hlt]
          apply ih (some w', c)
          intro w hw
          injection hw with hw
          rw [← hw]
          exact hc
        · rw [if_neg hlt]
          exact ih acc hacc

theorem rightmost_fold_some_stays (currentWindows : List (String × Window))
    (ps : List String) (acc : Option Window × Int) (w : Window)
    (h : acc.1 = some w) :
    ∃ w', (ps.foldl (rightmostStep currentWindows) acc).1 = some w' := by
  induction ps generalizing acc w with
  | nil => exact ⟨w, h⟩
  | cons pid ps ih =>
    simp only [List.foldl_cons]
    cases hl : currentWindows.lookup pid with
    | none =>
      rw [rightmostStep_lookup_none _ _ _ hl]
      exact ih acc w h
    | some w' =>
      cases hc : w'.column with
      | none =>
        rw [rightmostStep_col_none _ _ _ _ hl hc]
        exact ih acc w h
      | some c =>
        rw [rightmostStep_col_some _ _ _ _ _ hl hc]
        by_cases hlt : acc.2 < c
        · rw [if_pos hlt]
          exact ih (some w', c) w' rfl
        · rw [if_neg hlt]
          exact ih acc w h

theorem rightmost_fold_update (currentWindows : List (String × Window))
    (ps : List String) (acc : Option Window × Int)
    (h : ∃ c ∈ ps.filterMap (resolveColumn currentWindows), acc.2 < c) :
    ∃ w', (ps.foldl (rightmostStep currentWindows) acc).1 = some w' := by
  induction ps generalizing acc with
  | nil =>
    rcases h with ⟨c, hc, -⟩
    cases hc
  | cons pid ps ih =>
    simp only [List.foldl_cons]
    cases hl : currentWindows.lookup pid with
    | none =>
      rw [rightmostStep_lookup_none _ _ _ hl]
      apply ih acc
      rcases h with ⟨c, hc, hlt⟩
      refine ⟨c, ?_, hlt⟩
      simpa [List.filterMap_cons, resolveColumn, hl] using hc
    | some w =>
      cases hcol : w.column with
      | none =>
        rw [rightmostStep_col_none _ _ _ _ hl hcol]
        apply ih acc
        rcases h with ⟨c, hc, hlt⟩
        refine ⟨c, ?_, hlt⟩
        simpa [List.filterMap_cons, resolveColumn, hl, hcol] using hc
      | some c0 =>
        rw [rightmostStep_col_some _ _ _ _ _ hl hcol]
        by_cases hlt : acc.2 < c0
        · rw [if_pos hlt]
          exact rightmost_fold_some_stays _ _ _ w rfl
        · rw [if_neg hlt]
          apply ih acc
          rcases h with ⟨c, hc, hlt'⟩
          have hc' : c = c0 ∨ c ∈ ps.filterMap (resolveColumn currentWindows) := by
            simpa [List.filterMap_cons, resolveColumn, hl, hcol] using hc
          rcases hc' with hc' | hc'
          · exact absurd (hc' ▸ hlt') hlt
          · exact ⟨c, hc', hlt'⟩

theorem rightmost_fold_no_update (currentWindows : List (String × Window))
    (ps : List String) (acc : Option Window × Int)
    (h : ∀ c ∈ ps.filterMap (resolveColumn currentWindows), c ≤ acc.2) :
    ps.foldl (rightmostStep currentWindows) acc = acc := by
  induction ps generalizing acc with
  | nil => rfl
  | cons pid ps ih =>
    simp only [List.foldl_cons]
    cases hl : currentWindows.lookup pid with
    | none =>
      rw [rightmostStep_lookup_none _ _ _ hl]
      apply ih acc
      intro c hc
      apply h
      simpa [List.filterMap_cons, resolveColumn, hl] using hc
    | some w =>
      cases hcol : w.column with
      | none =>
        rw [rightmostStep_col_none _ _ _ _ hl hcol]
        apply ih acc
        intro c hc
        apply h
        simpa [List.filterMap_cons, resolveColumn, hl, hcol] using hc
      | some c0 =>
        have hc0 : c0 ≤ acc.2 := by
          apply h
          simp [List.filterMap_cons, resolveColumn, hl, hcol]
        rw [rightmostStep_col_some _ _ _ _ _ hl hcol, if_neg (not_lt.mpr hc0)]
        apply ih acc
        intro c hc
        apply h
        have : c = c0 ∨ c ∈ ps.filterMap (resolveColumn currentWindows) :=
          Or.inr hc
        simpa [List.filterMap_cons, resolveColumn, hl, hcol] using this

theorem mem_orderingCandidates_iff (identity : String)
    (savedOrder : List String) (pid : String) :
    pid ∈ orderingCandidates identity savedOrder ↔
      pid ∈ SPACER_IDENTITY :: get_predecessors identity savedOrder := by
  rw [orderingCandidates]
  by_cases h : SPACER_IDENTITY ∈ get_predecessors identity savedOrder
  · simp only [if_pos h, List.mem_cons]
    constructor
    · exact Or.inr
    · rintro (hp | hp)
      · exact hp ▸ h
      · exact hp
  · simp [if_neg h]

theorem mem_candidateColumns_iff (identity : String)
    (savedOrder : List String) (currentWindows : List (String × Window))
    (c : Int) :
    c ∈ (orderingCandidates identity savedOrder).filterMap
        (resolveColumn currentWindows) ↔
      c ∈ candidateColumns identity savedOrder currentWindows := by
  rw [candidateColumns]
  simp only [List.mem_filterMap]
  constructor
  · rintro ⟨pid, hpid, hres⟩
    exact ⟨pid, (mem_orderingCandidates_iff identity savedOrder pid).mp hpid,
      hres⟩
  · rintro ⟨pid, hpid, hres⟩
    exact ⟨pid, (mem_orderingCandidates_iff identity savedOrder pid).mpr hpid,
      hres⟩

theorem candidateColumns_pos (_identity : String) (_savedOrder : List String)
    (currentWindows : List (String × Window))
    (hpos : ∀ p ∈ currentWindows, ∀ c, p.2.column = some c → 1 ≤ c) :
    ∀ ps : List String, ∀ c ∈ ps.filterMap (resolveColumn currentWindows),
      1 ≤ c := by
  intro ps c hc
  rcases List.mem_filterMap.mp hc with ⟨pid, -, hres⟩
  rw [resolveColumn] at hres
  cases hl : currentWindows.lookup pid with
  | none => rw [hl] at hres; cases hres
  | some w =>
    rw [hl] at hres
    exact hpos (pid, w) (mem_of_lookup_eq_some hl) c hres

/-- C5.  When every live window column is at least 1, the computed target
column is one more than the maximum of the candidate columns (the spacer's
column when present plus the columns of the saved predecessors resolving
to live windows), and 1 when no candidate is present. -/
theorem calculate_target_column_spec (identity : String)
    (savedOrder : List String) (currentWindows : List (String × Window))
    (hpos : ∀ p ∈ currentWindows, ∀ c, p.2.column = some c → 1 ≤ c) :
    calculate_target_column identity savedOrder currentWindows =
      specTargetColumn identity savedOrder currentWindows := by
  have hposL := candidateColumns_pos identity savedOrder currentWindows hpos
  rw [specTargetColumn]
  cases hmax : (candidateColumns identity savedOrder currentWindows).max? with
  | none =>
    have hempty : candidateColumns identity savedOrder currentWindows = [] :=
      List.max?_eq_none_iff.mp hmax
    have hnone : (orderingCandidates identity savedOrder).foldl
        (rightmostStep currentWindows) (none, 0) = (none, 0) := by
      apply rightmost_fold_no_update
      intro c hc
      have := (mem_candidateColumns_iff identity savedOrder currentWindows
        c).mp hc
      rw [hempty] at this
      cases this
    rw [calculate_target_column, find_rightmost_predecessor, hnone]
  | some m =>
    have hm_mem : m ∈ candidateColumns identity savedOrder currentWindows :=
      List.max?_mem (fun a b => max_choice a b) hmax
    have hm_ub : ∀ b ∈ candidateColumns identity savedOrder currentWindows,
        b ≤ m :=
      (List.max?_le_iff (fun a b c => max_le_iff) hmax).mp le_rfl
    have hm1 : 1 ≤ m :=
      hposL (SPACER_IDENTITY :: get_predecessors identity savedOrder) m hm_mem
    have hm_memL : m ∈ (orderingCandidates identity savedOrder).filterMap
        (resolveColumn currentWindows) :=
      (mem_candidateColumns_iff identity savedOrder currentWindows m).mpr hm_mem
    obtain ⟨w, hw⟩ := rightmost_fold_update currentWindows
      (orderingCandidates identity savedOrder) (none, 0)
      ⟨m, hm_memL, by omega⟩
    have hcol := rightmost_fold_col currentWindows
      (orderingCandidates identity savedOrder) (none, 0)
      (by intro w hw; cases hw) w hw
    have hsnd := rightmost_fold_snd currentWindows
      (orderingCandidates identity savedOrder) (none, 0)
    have hsndm : ((orderingCandidates identity savedOrder).foldl
        (rightmostStep currentWindows) (none, 0)).2 = m := by
      rw [hsnd]
      apply le_antisymm
      · apply foldl_max_le
        · omega
        · intro c hc
          exact hm_ub c
            ((mem_candidateColumns_iff identity savedOrder currentWindows
              c).mp hc)
      · exact le_foldl_max_mem _ _ _ hm_memL
    rw [calculate_target_column, find_rightmost_predecessor, hw]
    rw [hsndm] at hcol
    show (match w.column with
      | none => 1
      | some c => c + 1) = m + 1
    rw [hcol]

/-- Witness for C5 at the spec §8 example: saved order `[A, B]`, `A` live
at column 2, no spacer; the computed target for `B` is 3. -/
theorem calculate_target_column_spec_witness :
    (∀ p ∈ [("A", (⟨1, "A", 1, some 2⟩ : Window))], ∀ c,
        p.2.column = some c → 1 ≤ c) ∧
      calculate_target_column "B" ["A", "B"]
          [("A", (⟨1, "A", 1, some 2⟩ : Window))] =
        specTargetColumn "B" ["A", "B"]
          [("A", (⟨1, "A", 1, some 2⟩ : Window))] ∧
      calculate_target_column "B" ["A", "B"]
          [("A", (⟨1, "A", 1, some 2⟩ : Window))] = 3 ∧
      calculate_target_column "B" ["A", "B"] [] = 1 :=
  ⟨by decide,
   calculate_target_column_spec "B" ["A", "B"]
     [("A", (⟨1, "A", 1, some 2⟩ : Window))] (by decide),
   by decide, by decide⟩

/-- The window-manager commands issued by the ordering engine. -/
inductive NiriCmd where
  | focus (windowId : Int)
  | moveLeft
  | moveRight
deriving DecidableEq, Repr

/-- `move_to_column` from `ordering.py`, modelled as the trace of the ipc
commands it issues: nothing when already at the target, otherwise a focus
followed by the two while loops — the first runs `current - target` times
(moving left) and leaves the second with nothing to do, and symmetrically
when moving right. -/
def move_to_column (windowId currentColumn targetColumn : Int) :
    List NiriCmd :=
  if currentColumn = targetColumn then []
  else
    NiriCmd.focus windowId ::
      (List.replicate (currentColumn - targetColumn).toNat NiriCmd.moveLeft ++
        List.replicate (targetColumn - currentColumn).toNat NiriCmd.moveRight)

/-- C8.  `move_to_column` issues exactly `|current - target|` move
commands, all in one direction, and nothing at all (no focus either) when
`current = target`. -/
theorem move_to_column_spec (windowId currentColumn targetColumn : Int) :
    ((move_to_column windowId currentColumn targetColumn).count
        NiriCmd.moveLeft +
      (move_to_column windowId currentColumn targetColumn).count
        NiriCmd.moveRight =
      (currentColumn - targetColumn).natAbs) ∧
    (currentColumn < targetColumn →
      (move_to_column windowId currentColumn targetColumn).count
        NiriCmd.moveLeft = 0) ∧
    (targetColumn < currentColumn →
      (move_to_column windowId currentColumn targetColumn).count
        NiriCmd.moveRight = 0) ∧
    (currentColumn = targetColumn →
      move_to_column windowId currentColumn targetColumn = []) := by
  by_cases h : currentColumn = targetColumn
  · refine ⟨?_, ?_, ?_, fun _ => by simp [move_to_column, h]⟩
    · simp [move_to_column, h]
    · intro hlt
      exact absurd h (ne_of_lt hlt)
    · intro hlt
      exact absurd h (ne_of_gt hlt)
  · have hcount : ∀ cmd : NiriCmd,
        (move_to_column windowId currentColumn targetColumn).count cmd =
          (List.replicate (currentColumn - targetColumn).toNat
              NiriCmd.moveLeft).count cmd +
            (List.replicate (targetColumn - currentColumn).toNat
              NiriCmd.moveRight).count cmd +
            (if cmd = NiriCmd.focus windowId then 1 else 0) := by
      intro cmd
      rw [move_to_column, if_neg h, List.count_cons, List.count_append]
      congr 1
      by_cases hc : cmd = NiriCmd.focus windowId
      · simp [hc]
      · simp [hc]
        exact fun he => hc he.symm
    refine ⟨?_, ?_, ?_, fun he => absurd he h⟩
    · rw [hcount NiriCmd.moveLeft, hcount NiriCmd.moveRight]
      simp [List.count_replicate]
      omega
    · intro hlt
      rw [hcount NiriCmd.moveLeft]
      simp [List.count_replicate]
      omega
    · intro hlt
      rw [hcount NiriCmd.moveRight]
      simp [List.count_replicate]
      omega

/-- Witness for C8: `current = 5, target = 3` issues two left moves and no
right move; `current = target = 3` issues nothing. -/
theorem move_to_column_spec_witness :
    move_to_column 1 3 3 = [] ∧
      (move_to_column 1 5 3).count NiriCmd.moveLeft +
        (move_to_column 1 5 3).count NiriCmd.moveRight = 2 ∧
      (move_to_column 1 5 3).count NiriCmd.moveRight = 0 ∧
      (move_to_column 1 5 3).count NiriCmd.moveLeft = 2 :=
  ⟨(move_to_column_spec 1 3 3).2.2.2 rfl,
   by have := (move_to_column_spec 1 5 3).1; simpa using this,
   (move_to_column_spec 1 5 3).2.2.1 (by decide),
   by decide⟩

/-! ## C6 / C7 / C10: URL identity matcher (`librewolf.py`) -/

/-- `IdentityEntry` from `librewolf.py`. -/
structure IdentityEntry where
  uuid : String
  urls : List String
deriving DecidableEq, Repr

/-- `UrlMatcher` state: the entry pool and the set of still-available
pool indices. -/
structure UrlMatcher where
  entries : List IdentityEntry
  available : Finset ℕ
deriving DecidableEq

/-- A matcher as `UrlMatcher.load` / `__init__` produce it:
`available = set(range(len(entries)))`. -/
def loadMatcher (entries : List IdentityEntry) : UrlMatcher :=
  ⟨entries, Finset.range entries.length⟩

/-- `len(set(urls) & set(self.entries[i].urls))`. -/
def overlapAt (m : UrlMatcher) (urls : List String) (i : ℕ) : ℕ :=
  (urls.toFinset ∩ (m.entries.getD i ⟨"", []⟩).urls.toFinset).card

/-- The available indices in the order the source's loops read them.
`available` always holds small ints below `len(entries)` (C10 proves the
invariant is preserved); CPython iterates such a set in increasing order,
and `min(self.available)` is the head of that order. -/
def availList (m : UrlMatcher) : List ℕ :=
  (List.range m.entries.length).filter (fun i => i ∈ m.available)

/-- The best-match scan of `match_or_create`: starting from
`(None, 0)`, keep the first index whose overlap strictly exceeds the best
overlap so far. -/
def bestScan (m : UrlMatcher) (urls : List String) : Option ℕ × ℕ :=
  (availList m).foldl
    (fun best i =>
      if best.2 < overlapAt m urls i then (some i, overlapAt m urls i)
      else best)
    (none, 0)

/-- Consume pool index `k`: remove it from availability, overwrite its
stored urls with the current ones, and return its uuid. -/
def consumeAt (m : UrlMatcher) (urls : List String) (k : ℕ) :
    String × UrlMatcher :=
  ((m.entries.getD k ⟨"", []⟩).uuid,
   ⟨m.entries.set k { m.entries.getD k ⟨"", []⟩ with urls := urls },
    m.available.erase k⟩)

/-- The two fallbacks of `match_or_create`: consume the lowest available
index (`min(self.available)`), or mint a fresh identifier — the source
draws `uuid4()`, modelled by the `freshUuid` argument — and append a new
entry (which is not added to `available`). -/
def fallbackOrCreate (m : UrlMatcher) (urls : List String)
    (freshUuid : String) : String × UrlMatcher :=
  match availList m with
  | [] => (freshUuid, ⟨m.entries ++ [⟨freshUuid, urls⟩], m.available⟩)
  | k :: _ => consumeAt m urls k

/-- `match_or_create` from `librewolf.py`.  (When the scan found an index
its overlap is positive by construction, but the source re-checks
`best_overlap > 0`, so the dead `else` branch is kept.) -/
def match_or_create (m : UrlMatcher) (urls : List String)
    (freshUuid : String) : String × UrlMatcher :=
  match bestScan m urls with
  | (some k, ov) =>
    if 0 < ov then consumeAt m urls k
    else fallbackOrCreate m urls freshUuid
  | (none, _) => fallbackOrCreate m urls freshUuid

theorem scan_fold_spec (ov : ℕ → ℕ) (l : List ℕ) (acc : Option ℕ × ℕ) :
    (l.foldl
        (fun best i => if best.2 < ov i then (some i, ov i) else best)
        acc = acc ∧
      ∀ i ∈ l, ov i ≤ acc.2) ∨
    (∃ l₁ k l₂, l = l₁ ++ k :: l₂ ∧
      l.foldl
        (fun best i => if best.2 < ov i then (some i, ov i) else best)
        acc = (some k, ov k) ∧
      acc.2 < ov k ∧ (∀ j ∈ l₁, ov j < ov k) ∧ (∀ j ∈ l₂, ov j ≤ ov k)) := by
  induction l generalizing acc with
  | nil => exact Or.inl ⟨rfl, fun i hi => absurd hi (List.not_mem_nil i)⟩
  | cons i l ih =>
    by_cases hlt : acc.2 < ov i
    · have hstep : (i :: l).foldl
          (fun best i => if best.2 < ov i then (some i, ov i) else best) acc =
          l.foldl
            (fun best i => if best.2 < ov i then (some i, ov i) else best)
            (some i, ov i) := by
        rw [List.foldl_cons, if_pos hlt]
      rcases ih (some i, ov i) with ⟨hres, hbound⟩ | ⟨l₁, k, l₂, hsplit, hres, hacclt, hpre, hsuf⟩
      · exact Or.inr ⟨[], i, l, rfl, by rw [hstep]; exact hres, hlt,
          fun j hj => absurd hj (List.not_mem_nil j), hbound⟩
      · refine Or.inr ⟨i :: l₁, k, l₂, by rw [hsplit, List.cons_append], by rw [hstep]; exact hres,
          lt_trans hlt hacclt, ?_, hsuf⟩
        intro j hj
        rcases List.mem_cons.mp hj with hj | hj
        · exact hj ▸ hacclt
        · exact hpre j hj
    · have hstep : (i :: l).foldl
          (fun best i => if best.2 < ov i then (some i, ov i) else best) acc =
          l.foldl
            (fun best i => if best.2 < ov i then (some i, ov i) else best)
            acc := by
        rw [List.foldl_cons, if_neg hlt]
      rcases ih acc with ⟨hres, hbound⟩ | ⟨l₁, k, l₂, hsplit, hres, hacclt, hpre, hsuf⟩
      · refine Or.inl ⟨by rw [hstep]; exact hres, ?_⟩
        intro j hj
        rcases List.mem_cons.mp hj with hj | hj
        · exact hj ▸ not_lt.mp hlt
        · exact hbound j hj
      · refine Or.inr ⟨i :: l₁, k, l₂, by rw [hsplit, List.cons_append], by rw [hstep]; exact hres,
          hacclt, ?_, hsuf⟩
        intro j hj
        rcases List.mem_cons.mp hj with hj | hj
        · exact hj ▸ lt_of_le_of_lt (not_lt.mp hlt) hacclt
        · exact hpre j hj

theorem mem_availList_iff {m : UrlMatcher} {i : ℕ} :
    i ∈ availList m ↔ i < m.entries.length ∧ i ∈ m.available := by
  rw [availList]
  simp [List.mem_filter, List.mem_range, and_comm]

theorem availList_pairwise (m : UrlMatcher) :
    (availList m).Pairwise (· < ·) :=
  (List.sorted_lt_range m.entries.length).sublist
    (List.filter_sublist _)

/-- The best-match scan finds nothing exactly when every available index
has zero overlap. -/
theorem bestScan_none_iff (m : UrlMatcher) (urls : List String) :
    (bestScan m urls).1 = none ↔
      ∀ i ∈ availList m, overlapAt m urls i = 0 := by
  unfold bestScan
  rcases scan_fold_spec (overlapAt m urls) (availList m) (none, 0) with
    ⟨hres, hbound⟩ | ⟨l₁, k, l₂, hsplit, hres, hpos, -, -⟩
  · rw [hres]
    simp only [true_iff]
    intro i hi
    exact Nat.le_zero.mp (hbound i hi)
  · rw [hres]
    constructor
    · intro h
      cases h
    · intro hall
      exfalso
      have hk : k ∈ availList m := by
        rw [hsplit]
        exact List.mem_append.mpr (Or.inr (by simp))
      have := hall k hk
      simp only [this] at hpos
      exact absurd hpos (by omega)

/-- When the scan returns an index, it is the first available index of
maximal overlap, and that overlap is positive. -/
theorem bestScan_some (m : UrlMatcher) (urls : List String) (k : ℕ) (v : ℕ)
    (h : bestScan m urls = (some k, v)) :
    v = overlapAt m urls k ∧ k ∈ availList m ∧ 0 < overlapAt m urls k ∧
      (∀ j ∈ availList m, j < k → overlapAt m urls j < overlapAt m urls k) ∧
      (∀ j ∈ availList m, overlapAt m urls j ≤ overlapAt m urls k) := by
  unfold bestScan at h
  rcases scan_fold_spec (overlapAt m urls) (availList m) (none, 0) with
    ⟨hres, -⟩ | ⟨l₁, k', l₂, hsplit, hres, hpos, hpre, hsuf⟩
  · rw [hres] at h
    cases h
  · rw [hres] at h
    have h1 : k' = k := by
      simpa using congrArg Prod.fst h
    have h2 : v = overlapAt m urls k := by
      have hv := congrArg Prod.snd h
      rw [h1] at hv
      exact hv.symm
    rw [h1] at hsplit hpre hsuf hpos
    have hsort := availList_pairwise m
    rw [hsplit] at hsort
    have hk : k ∈ availList m := by
      rw [hsplit]
      exact List.mem_append.mpr (Or.inr (by simp))
    refine ⟨h2, hk, hpos, ?_, ?_⟩
    · intro j hj hjk
      rw [hsplit] at hj
      rcases List.mem_append.mp hj with hj | hj
      · exact hpre j hj
      · rcases List.mem_cons.mp hj with hj | hj
        · omega
        · have : k < j := by
            have := List.pairwise_append.mp hsort
            exact (List.pairwise_cons.mp this.2.1).1 j hj
          omega
    · intro j hj
      rw [hsplit] at hj
      rcases List.mem_append.mp hj with hj | hj
      · exact le_of_lt (hpre j hj)
      · rcases List.mem_cons.mp hj with hj | hj
        · exact hj ▸ le_rfl
        · exact hsuf j hj

/-- Conversely, the first available index of maximal positive overlap is
what the scan returns. -/
theorem bestScan_eq_of_max (m : UrlMatcher) (urls : List String) (k : ℕ)
    (hk : k ∈ availList m) (hpos : 0 < overlapAt m urls k)
    (hpre : ∀ j ∈ availList m, j < k → overlapAt m urls j < overlapAt m urls k)
    (hub : ∀ j ∈ availList m, overlapAt m urls j ≤ overlapAt m urls k) :
    bestScan m urls = (some k, overlapAt m urls k) := by
  unfold bestScan
  rcases scan_fold_spec (overlapAt m urls) (availList m) (none, 0) with
    ⟨hres, hbound⟩ | ⟨l₁, k', l₂, hsplit, hres, -, hpre', hsuf'⟩
  · exact absurd (Nat.le_zero.mp (hbound k hk)) (by omega)
  · rw [hres]
    have hsort := availList_pairwise m
    have hk' : k' ∈ availList m := by
      rw [hsplit]
      exact List.mem_append.mpr (Or.inr (by simp))
    rcases lt_trichotomy k k' with hlt | heq | hgt
    · exfalso
      have hmemsplit : k ∈ l₁ := by
        rw [hsplit] at hk
        rcases List.mem_append.mp hk with h | h
        · exact h
        · rcases List.mem_cons.mp h with h | h
          · omega
          · rw [hsplit] at hsort
            have := (List.pairwise_cons.mp
              (List.pairwise_append.mp hsort).2.1).1 k h
            omega
      have h1 : overlapAt m urls k < overlapAt m urls k' := hpre' k hmemsplit
      have h2 : overlapAt m urls k' ≤ overlapAt m urls k := hub k' hk'
      omega
    · rw [heq]
    · exfalso
      have h1 : overlapAt m urls k' < overlapAt m urls k := hpre k' hk' hgt
      have h2 : overlapAt m urls k ≤ overlapAt m urls k' := by
        rw [hsplit] at hk
        rcases List.mem_append.mp hk with h | h
        · exact le_of_lt (hpre' k h)
        · rcases List.mem_cons.mp h with h | h
          · omega
          · exact hsuf' k h
      omega

theorem availList_head_least (m : UrlMatcher) (k : ℕ) (rest : List ℕ)
    (h : availList m = k :: rest) : ∀ j ∈ availList m, k ≤ j := by
  intro j hj
  have hsort := availList_pairwise m
  rw [h] at hsort hj
  rcases List.mem_cons.mp hj with hj | hj
  · omega
  · exact le_of_lt ((List.pairwise_cons.mp hsort).1 j hj)

/-- C7.  The full case split of `match_or_create` over a pool whose
available set respects the class invariant: a positive-overlap best match
is consumed, overwritten and its uuid returned; otherwise the lowest
available index is; otherwise a fresh identifier is minted and appended. -/
theorem match_or_create_spec (m : UrlMatcher) (urls : List String)
    (freshUuid : String)
    (hsub : m.available ⊆ Finset.range m.entries.length) :
    ((∃ i ∈ m.available, 0 < overlapAt m urls i) →
      ∃ k ∈ m.available, 0 < overlapAt m urls k ∧
        (∀ j ∈ m.available, overlapAt m urls j ≤ overlapAt m urls k) ∧
        match_or_create m urls freshUuid =
          ((m.entries.getD k ⟨"", []⟩).uuid,
           ⟨m.entries.set k { m.entries.getD k ⟨"", []⟩ with urls := urls },
            m.available.erase k⟩)) ∧
    ((∀ i ∈ m.available, overlapAt m urls i = 0) → m.available.Nonempty →
      ∃ k ∈ m.available, (∀ j ∈ m.available, k ≤ j) ∧
        match_or_create m urls freshUuid =
          ((m.entries.getD k ⟨"", []⟩).uuid,
           ⟨m.entries.set k { m.entries.getD k ⟨"", []⟩ with urls := urls },
            m.available.erase k⟩)) ∧
    (m.available = ∅ →
      match_or_create m urls freshUuid =
        (freshUuid, ⟨m.entries ++ [⟨freshUuid, urls⟩], m.available⟩)) := by
  have hmem_avail : ∀ i ∈ m.available, i ∈ availList m := by
    intro i hi
    exact mem_availList_iff.mpr ⟨Finset.mem_range.mp (hsub hi), hi⟩
  refine ⟨?_, ?_, ?_⟩
  · rintro ⟨i, hi, hipos⟩
    cases hscan : bestScan m urls with
    | mk fst snd =>
      cases fst with
      | none =>
        exfalso
        have := (bestScan_none_iff m urls).mp (by rw [hscan])
        exact absurd (this i (hmem_avail i hi)) (by omega)
      | some k =>
        rcases bestScan_some m urls k snd hscan with
          ⟨hv, hk, hkpos, -, hub⟩
        refine ⟨k, (mem_availList_iff.mp hk).2, hkpos, ?_, ?_⟩
        · intro j hj
          exact hub j (hmem_avail j hj)
        · rw [match_or_create, hscan]
          show (if 0 < snd then consumeAt m urls k
            else fallbackOrCreate m urls freshUuid) = _
          rw [if_pos (show 0 < snd by rw [hv]; exact hkpos)]
          rfl
  · intro hzero hne
    have hnone : (bestScan m urls).1 = none := by
      rw [bestScan_none_iff]
      intro i hi
      exact hzero i (mem_availList_iff.mp hi).2
    rcases hne with ⟨i, hi⟩
    cases hlist : availList m with
    | nil =>
      exfalso
      have := hmem_avail i hi
      rw [hlist] at this
      cases this
    | cons k rest =>
      have hk : k ∈ availList m := by rw [hlist]; simp
      refine ⟨k, (mem_availList_iff.mp hk).2, ?_, ?_⟩
      · intro j hj
        exact availList_head_least m k rest hlist j (hmem_avail j hj)
      · cases hscan : bestScan m urls with
        | mk fst snd =>
          cases fst with
          | some k' =>
            exfalso
            rw [hscan] at hnone
            cases hnone
          | none =>
            rw [match_or_create, hscan]
            show fallbackOrCreate m urls freshUuid = _
            rw [fallbackOrCreate, hlist]
            rfl
  · intro hempty
    have hlist : availList m = [] := by
      rw [availList, List.filter_eq_nil_iff]
      intro i _
      simp [hempty]
    have hnone : (bestScan m urls).1 = none := by
      rw [bestScan_none_iff]
      intro i hi
      rw [hlist] at hi
      cases hi
    cases hscan : bestScan m urls with
    | mk fst snd =>
      cases fst with
      | some k' =>
        exfalso
        rw [hscan] at hnone
        cases hnone
      | none =>
        rw [match_or_create, hscan]
        show fallbackOrCreate m urls freshUuid = _
        rw [fallbackOrCreate, hlist]

/-- Witness for C7 at the spec §8 example pool: stored url sets
`{a, b, c}` and `{x, y}`; matching `{a, b, d}` (overlap 2) consumes the
first entry and returns its identifier. -/
theorem match_or_create_spec_witness :
    (∃ k ∈ (loadMatcher [⟨"u0", ["a", "b", "c"]⟩, ⟨"u1", ["x", "y"]⟩]).available,
      0 < overlapAt (loadMatcher [⟨"u0", ["a", "b", "c"]⟩, ⟨"u1", ["x", "y"]⟩])
          ["a", "b", "d"] k ∧
      (∀ j ∈ (loadMatcher [⟨"u0", ["a", "b", "c"]⟩, ⟨"u1", ["x", "y"]⟩]).available,
        overlapAt (loadMatcher [⟨"u0", ["a", "b", "c"]⟩, ⟨"u1", ["x", "y"]⟩])
            ["a", "b", "d"] j ≤
          overlapAt (loadMatcher [⟨"u0", ["a", "b", "c"]⟩, ⟨"u1", ["x", "y"]⟩])
            ["a", "b", "d"] k) ∧
      match_or_create (loadMatcher [⟨"u0", ["a", "b", "c"]⟩, ⟨"u1", ["x", "y"]⟩])
          ["a", "b", "d"] "fresh" =
        (((loadMatcher [⟨"u0", ["a", "b", "c"]⟩, ⟨"u1", ["x", "y"]⟩]).entries.getD
            k ⟨"", []⟩).uuid,
         ⟨(loadMatcher [⟨"u0", ["a", "b", "c"]⟩, ⟨"u1", ["x", "y"]⟩]).entries.set
            k { (loadMatcher [⟨"u0", ["a", "b", "c"]⟩,
                  ⟨"u1", ["x", "y"]⟩]).entries.getD k ⟨"", []⟩ with
                urls := ["a", "b", "d"] },
          (loadMatcher [⟨"u0", ["a", "b", "c"]⟩,
            ⟨"u1", ["x", "y"]⟩]).available.erase k⟩)) ∧
    (match_or_create (loadMatcher [⟨"u0", ["a", "b", "c"]⟩, ⟨"u1", ["x", "y"]⟩])
        ["a", "b", "d"] "fresh").1 = "u0" :=
  ⟨(match_or_create_spec
      (loadMatcher [⟨"u0", ["a", "b", "c"]⟩, ⟨"u1", ["x", "y"]⟩])
      ["a", "b", "d"] "fresh" (by decide)).1 ⟨0, by decide, by decide⟩,
   by decide⟩

theorem match_or_create_of_scan_some (m : UrlMatcher) (urls : List String)
    (f : String) (k v : ℕ) (h : bestScan m urls = (some k, v))
    (hpos : 0 < v) : match_or_create m urls f = consumeAt m urls k := by
  rw [match_or_create, h]
  show (if 0 < v then consumeAt m urls k else fallbackOrCreate m urls f) = _
  rw [if_pos hpos]

theorem match_or_create_of_scan_none (m : UrlMatcher) (urls : List String)
    (f : String) (h : (bestScan m urls).1 = none) :
    match_or_create m urls f = fallbackOrCreate m urls f := by
  cases hscan : bestScan m urls with
  | mk fst snd =>
    cases fst with
    | some k =>
      rw [hscan] at h
      cases h
    | none => rw [match_or_create, hscan]

theorem getD_set_self (es : List IdentityEntry) (k : ℕ)
    (e d : IdentityEntry) (hk : k < es.length) :
    (es.set k e).getD k d = e := by
  simp [List.getD_eq_getElem?_getD, List.getElem?_set_self hk]

theorem getD_set_ne (es : List IdentityEntry) (k j : ℕ)
    (e d : IdentityEntry) (h : k ≠ j) :
    (es.set k e).getD j d = es.getD j d := by
  simp [List.getD_eq_getElem?_getD, List.getElem?_set_ne h]

theorem mem_availList_loadMatcher {es : List IdentityEntry} {i : ℕ} :
    i ∈ availList (loadMatcher es) ↔ i < es.length := by
  rw [mem_availList_iff]
  constructor
  · rintro ⟨h, -⟩
    exact h
  · intro h
    exact ⟨h, Finset.mem_range.mpr h⟩

/-- After the second `load`, a pool index of maximal positive overlap that
dominates every earlier index is the one consumed, and its stored uuid is
returned. -/
theorem second_call_consumes_max (es1 : List IdentityEntry)
    (urls : List String) (f2 : String) (k : ℕ) (hklt : k < es1.length)
    (hpos : 0 < overlapAt (loadMatcher es1) urls k)
    (hpre : ∀ j, j < es1.length → j < k →
      overlapAt (loadMatcher es1) urls j < overlapAt (loadMatcher es1) urls k)
    (hub : ∀ j, j < es1.length →
      overlapAt (loadMatcher es1) urls j ≤ overlapAt (loadMatcher es1) urls k) :
    (match_or_create (loadMatcher es1) urls f2).1 =
      (es1.getD k ⟨"", []⟩).uuid := by
  have hscan2 : bestScan (loadMatcher es1) urls =
      (some k, overlapAt (loadMatcher es1) urls k) := by
    apply bestScan_eq_of_max
    · exact mem_availList_loadMatcher.mpr hklt
    · exact hpos
    · intro j hj hjk
      exact hpre j (mem_availList_loadMatcher.mp hj) hjk
    · intro j hj
      exact hub j (mem_availList_loadMatcher.mp hj)
  rw [match_or_create_of_scan_some _ urls f2 k _ hscan2 hpos]
  rfl

/-- After the second `load`, when every available overlap is zero the
lowest index 0 is consumed and its stored uuid returned. -/
theorem second_call_consumes_zero (es1 : List IdentityEntry)
    (urls : List String) (f2 : String) (hlen : 0 < es1.length)
    (hzero : ∀ j, j < es1.length →
      overlapAt (loadMatcher es1) urls j = 0) :
    (match_or_create (loadMatcher es1) urls f2).1 =
      (es1.getD 0 ⟨"", []⟩).uuid := by
  have hnone : (bestScan (loadMatcher es1) urls).1 = none := by
    rw [bestScan_none_iff]
    intro i hi
    exact hzero i (mem_availList_loadMatcher.mp hi)
  rw [match_or_create_of_scan_none _ urls f2 hnone]
  have hav : availList (loadMatcher es1) = List.range es1.length := by
    show (List.range es1.length).filter
      (fun i => i ∈ (loadMatcher es1).available) = List.range es1.length
    rw [List.filter_eq_self]
    intro i hi
    simpa [loadMatcher] using List.mem_range.mp hi
  rcases Nat.exists_eq_add_of_lt hlen with ⟨len, hlen'⟩
  have hrange : List.range es1.length = 0 :: (List.range (len)).map Nat.succ := by
    rw [hlen', Nat.zero_add, List.range_succ_eq_map]
  rw [fallbackOrCreate, hav, hrange]
  rfl

/-- Overwriting entry `k` with the current urls makes its overlap the full
url-set size and leaves every other entry's overlap unchanged. -/
theorem overlap_after_overwrite (es : List IdentityEntry)
    (urls : List String) (k : ℕ) (hk : k < es.length) :
    overlapAt (loadMatcher
        (es.set k { es.getD k ⟨"", []⟩ with urls := urls })) urls k =
      urls.toFinset.card ∧
    ∀ j, j ≠ k →
      overlapAt (loadMatcher
          (es.set k { es.getD k ⟨"", []⟩ with urls := urls })) urls j =
        overlapAt (loadMatcher es) urls j := by
  constructor
  · show (urls.toFinset ∩
      ((es.set k { es.getD k ⟨"", []⟩ with urls := urls }).getD k
        ⟨"", []⟩).urls.toFinset).card = _
    rw [getD_set_self _ _ _ _ hk]
    rw [show ({ es.getD k ⟨"", []⟩ with urls := urls } :
      IdentityEntry).urls = urls from rfl]
    rw [Finset.inter_self]
  · intro j hj
    show (urls.toFinset ∩
        ((es.set k { es.getD k ⟨"", []⟩ with urls := urls }).getD j
          ⟨"", []⟩).urls.toFinset).card =
      (urls.toFinset ∩ (es.getD j ⟨"", []⟩).urls.toFinset).card
    rw [getD_set_ne _ _ _ _ _ (fun h => hj h.symm)]

/-- C6 (amended).  Starting from a freshly loaded matcher (every pool
entry available), matching a url list, persisting the entries and
re-matching the same urls on a fresh load yields the same identifier. -/
theorem match_or_create_roundtrip (entries : List IdentityEntry)
    (urls : List String) (f1 f2 : String) :
    (match_or_create (loadMatcher
        (match_or_create (loadMatcher entries) urls f1).2.entries)
      urls f2).1 =
      (match_or_create (loadMatcher entries) urls f1).1 := by
  cases hscan : bestScan (loadMatcher entries) urls with
  | mk fst snd =>
    cases fst with
    | some k =>
      rcases bestScan_some _ urls k snd hscan with ⟨hv, hk, hkpos, hpre, hub⟩
      have hklt : k < entries.length := mem_availList_loadMatcher.mp hk
      have hr1 := match_or_create_of_scan_some _ urls f1 k snd hscan
        (by rw [hv]; exact hkpos)
      rw [hr1]
      rw [show (consumeAt (loadMatcher entries) urls k).2.entries =
        entries.set k { entries.getD k ⟨"", []⟩ with urls := urls } from rfl]
      rcases overlap_after_overwrite entries urls k hklt with ⟨hov_k, hov_ne⟩
      have hlen1 : (entries.set k
          { entries.getD k ⟨"", []⟩ with urls := urls }).length =
          entries.length := List.length_set entries k _
      have hle : overlapAt (loadMatcher entries) urls k ≤
          urls.toFinset.card :=
        Finset.card_le_card Finset.inter_subset_left
      have h2 := second_call_consumes_max
        (entries.set k { entries.getD k ⟨"", []⟩ with urls := urls })
        urls f2 k (by rw [hlen1]; exact hklt)
        (by rw [hov_k]; omega)
        (by intro j hjlen hjk
            rw [hov_ne j (Nat.ne_of_lt hjk), hov_k]
            have := hpre j
              (mem_availList_loadMatcher.mpr (by rw [← hlen1]; exact hjlen))
              hjk
            omega)
        (by intro j hjlen
            by_cases hjk : j = k
            · rw [hjk]
            · rw [hov_ne j hjk, hov_k]
              have := hub j
                (mem_availList_loadMatcher.mpr (by rw [← hlen1]; exact hjlen))
              omega)
      rw [h2, getD_set_self _ _ _ _ hklt]
      rfl
    | none =>
      have hall : ∀ i ∈ availList (loadMatcher entries),
          overlapAt (loadMatcher entries) urls i = 0 :=
        (bestScan_none_iff _ _).mp (by rw [hscan])
      have hr1 := match_or_create_of_scan_none _ urls f1 (by rw [hscan])
      rw [hr1]
      cases entries with
      | nil =>
        rw [show fallbackOrCreate (loadMatcher ([] : List IdentityEntry))
          urls f1 =
          (f1, ⟨[⟨f1, urls⟩],
            (loadMatcher ([] : List IdentityEntry)).available⟩) from rfl]
        by_cases hcard : 0 < urls.toFinset.card
        · have h2 := second_call_consumes_max [⟨f1, urls⟩] urls f2 0 (by simp)
            (by show 0 < (urls.toFinset ∩
                  (([⟨f1, urls⟩] : List IdentityEntry).getD 0
                    ⟨"", []⟩).urls.toFinset).card
                rw [show (([⟨f1, urls⟩] : List IdentityEntry).getD 0
                  ⟨"", []⟩).urls = urls from rfl, Finset.inter_self]
                exact hcard)
            (fun j _ hj0 => absurd hj0 (Nat.not_lt_zero j))
            (by intro j hjlen
                have hj0 : j = 0 := by
                  simp only [List.length_singleton] at hjlen
                  omega
                rw [hj0])
          rw [h2]
          rfl
        · have h2 := second_call_consumes_zero [⟨f1, urls⟩] urls f2 (by simp)
            (by intro j hjlen
                have hj0 : j = 0 := by
                  simp only [List.length_singleton] at hjlen
                  omega
                rw [hj0]
                show (urls.toFinset ∩
                  (([⟨f1, urls⟩] : List IdentityEntry).getD 0
                    ⟨"", []⟩).urls.toFinset).card = 0
                rw [show (([⟨f1, urls⟩] : List IdentityEntry).getD 0
                  ⟨"", []⟩).urls = urls from rfl, Finset.inter_self]
                omega)
          rw [h2]
          rfl
      | cons e0 rest0 =>
        have hlen0 : 0 < (e0 :: rest0).length := by simp
        have hav : availList (loadMatcher (e0 :: rest0)) =
            List.range (e0 :: rest0).length := by
          show (List.range (e0 :: rest0).length).filter
            (fun i => i ∈ (loadMatcher (e0 :: rest0)).available) = _
          rw [List.filter_eq_self]
          intro i hi
          simpa [loadMatcher] using List.mem_range.mp hi
        have hrange : List.range (e0 :: rest0).length =
            0 :: (List.range rest0.length).map Nat.succ := by
          rw [List.length_cons, List.range_succ_eq_map]
        have hfall : fallbackOrCreate (loadMatcher (e0 :: rest0)) urls f1 =
            consumeAt (loadMatcher (e0 :: rest0)) urls 0 := by
          rw [fallbackOrCreate, hav, hrange]
        rw [hfall]
        rw [show (consumeAt (loadMatcher (e0 :: rest0)) urls 0).2.entries =
          (e0 :: rest0).set 0
            { (e0 :: rest0).getD 0 ⟨"", []⟩ with urls := urls } from rfl]
        rcases overlap_after_overwrite (e0 :: rest0) urls 0 hlen0 with
          ⟨hov_k, hov_ne⟩
        have hlen1 : ((e0 :: rest0).set 0
            { (e0 :: rest0).getD 0 ⟨"", []⟩ with urls := urls }).length =
            (e0 :: rest0).length := List.length_set _ _ _
        have hall0 : ∀ j, j < (e0 :: rest0).length →
            overlapAt (loadMatcher (e0 :: rest0)) urls j = 0 := by
          intro j hj
          exact hall j (mem_availList_loadMatcher.mpr hj)
        by_cases hcard : 0 < urls.toFinset.card
        · have h2 := second_call_consumes_max
            ((e0 :: rest0).set 0
              { (e0 :: rest0).getD 0 ⟨"", []⟩ with urls := urls })
            urls f2 0 (by rw [hlen1]; exact hlen0)
            (by rw [hov_k]; exact hcard)
            (fun j _ hj0 => absurd hj0 (Nat.not_lt_zero j))
            (by intro j hjlen
                by_cases hj0 : j = 0
                · rw [hj0]
                · rw [hov_ne j hj0, hov_k]
                  have := hall0 j (by rw [← hlen1]; exact hjlen)
                  omega)
          rw [h2, getD_set_self _ _ _ _ hlen0]
          rfl
        · have h2 := second_call_consumes_zero
            ((e0 :: rest0).set 0
              { (e0 :: rest0).getD 0 ⟨"", []⟩ with urls := urls })
            urls f2 (by rw [hlen1]; exact hlen0)
            (by intro j hjlen
                by_cases hj0 : j = 0
                · rw [hj0, hov_k]
                  omega
                · rw [hov_ne j hj0]
                  exact hall0 j (by rw [← hlen1]; exact hjlen))
          rw [h2, getD_set_self _ _ _ _ hlen0]
          rfl

/-- Counterexample to C6 as stated, for a matcher that is not freshly
loaded.  The state is reachable: loading `[⟨u0, [a]⟩, ⟨u1, [x]⟩]` and
matching `[a]` consumes index 0 and leaves `available = {1}`; the claim's
call then returns `u1`, but after save and fresh load the same urls match
entry 0 and return `u0`. -/
theorem match_or_create_roundtrip_counterexample :
    (match_or_create (loadMatcher
        (match_or_create
          (match_or_create (loadMatcher [⟨"u0", ["a"]⟩, ⟨"u1", ["x"]⟩])
            ["a"] "f1").2
          ["a"] "f2").2.entries)
      ["a"] "f3").1 ≠
      (match_or_create
        (match_or_create (loadMatcher [⟨"u0", ["a"]⟩, ⟨"u1", ["x"]⟩])
          ["a"] "f1").2
        ["a"] "f2").1 ∧
    (match_or_create
        (match_or_create (loadMatcher [⟨"u0", ["a"]⟩, ⟨"u1", ["x"]⟩])
          ["a"] "f1").2
        ["a"] "f2").1 = "u1" ∧
    (match_or_create (loadMatcher
        (match_or_create
          (match_or_create (loadMatcher [⟨"u0", ["a"]⟩, ⟨"u1", ["x"]⟩])
            ["a"] "f1").2
          ["a"] "f2").2.entries)
      ["a"] "f3").1 = "u0" := by
  refine ⟨?_, ?_, ?_⟩ <;> decide

/-- The pool index one `match_or_create` call consumes, if any. -/
def consumedIdx (m : UrlMatcher) (urls : List String) : Option ℕ :=
  match bestScan m urls with
  | (some k, ov) => if 0 < ov then some k else (availList m).head?
  | (none, _) => (availList m).head?

theorem consumedIdx_spec (m : UrlMatcher) (urls : List String)
    (freshUuid : String) :
    (consumedIdx m urls = none →
      (match_or_create m urls freshUuid).2.available = m.available) ∧
    (∀ k, consumedIdx m urls = some k →
      k ∈ m.available ∧
      (match_or_create m urls freshUuid).1 =
        (m.entries.getD k ⟨"", []⟩).uuid ∧
      (match_or_create m urls freshUuid).2.available =
        m.available.erase k) := by
  have hfall : ∀ k, (availList m).head? = some k →
      k ∈ m.available ∧ fallbackOrCreate m urls freshUuid = consumeAt m urls k := by
    intro k hk
    cases hlist : availList m with
    | nil => rw [hlist] at hk; cases hk
    | cons k' rest =>
      rw [hlist] at hk
      injection hk with hk
      constructor
      · have hmem : k' ∈ availList m := by rw [hlist]; simp
        rw [← hk]
        exact (mem_availList_iff.mp hmem).2
      · rw [fallbackOrCreate, hlist]
        show consumeAt m urls k' = consumeAt m urls k
        rw [hk]
  cases hscan : bestScan m urls with
  | mk fst snd =>
    cases fst with
    | some k' =>
      have hpos : 0 < snd := by
        rcases bestScan_some m urls k' snd hscan with ⟨hv, -, hkpos, -, -⟩
        rw [hv]
        exact hkpos
      have hc : consumedIdx m urls = some k' := by
        rw [consumedIdx, hscan]
        show (if 0 < snd then some k' else (availList m).head?) = _
        rw [if_pos hpos]
      constructor
      · intro h
        rw [hc] at h
        cases h
      · intro k hk
        rw [hc] at hk
        injection hk with hk
        rw [← hk]
        rcases bestScan_some m urls k' snd hscan with ⟨-, hkav, -, -, -⟩
        rw [match_or_create_of_scan_some m urls freshUuid k' snd hscan hpos]
        exact ⟨(mem_availList_iff.mp hkav).2, rfl, rfl⟩
    | none =>
      have hr := match_or_create_of_scan_none m urls freshUuid
        (by rw [hscan])
      have hc : consumedIdx m urls = (availList m).head? := by
        rw [consumedIdx, hscan]
      constructor
      · intro h
        rw [hc] at h
        cases hlist : availList m with
        | nil =>
          rw [hr, fallbackOrCreate, hlist]
        | cons k' rest =>
          rw [hlist] at h
          cases h
      · intro k hk
        rw [hc] at hk
        rcases hfall k hk with ⟨hkav, hcons⟩
        rw [hr, hcons]
        exact ⟨hkav, rfl, rfl⟩

/-- The consumed indices along a run of `match_or_create` calls, each call
given as `(urls, freshUuid)`. -/
def consumedTrace (m : UrlMatcher) :
    List (List String × String) → List (Option ℕ)
  | [] => []
  | c :: rest =>
    consumedIdx m c.1 :: consumedTrace (match_or_create m c.1 c.2).2 rest

theorem available_mono (m : UrlMatcher) (urls : List String)
    (freshUuid : String) :
    (match_or_create m urls freshUuid).2.available ⊆ m.available := by
  rcases (consumedIdx_spec m urls freshUuid) with ⟨hnone, hsome⟩
  cases hc : consumedIdx m urls with
  | none =>
    rw [hnone hc]
  | some k =>
    rw [(hsome k hc).2.2]
    exact Finset.erase_subset k m.available

/-- C10.  Along any run of `match_or_create` calls on one matcher, each
consumed pool index lies in the starting availability set, no index is
ever consumed twice, and a consumed index's stored uuid is what the call
returns. -/
theorem match_or_create_no_reconsume (calls : List (List String × String))
    (m : UrlMatcher) :
    ((consumedTrace m calls).filterMap id).Nodup ∧
      (∀ k ∈ (consumedTrace m calls).filterMap id, k ∈ m.available) ∧
      (∀ urls freshUuid k, consumedIdx m urls = some k →
        (match_or_create m urls freshUuid).1 =
          (m.entries.getD k ⟨"", []⟩).uuid) := by
  induction calls generalizing m with
  | nil =>
    refine ⟨List.nodup_nil, ?_, ?_⟩
    · intro k hk
      cases hk
    · intro urls freshUuid k hk
      exact ((consumedIdx_spec m urls freshUuid).2 k hk).2.1
  | cons c rest ih =>
    rcases ih (match_or_create m c.1 c.2).2 with ⟨ihnd, ihmem, -⟩
    have hlink : ∀ urls freshUuid k, consumedIdx m urls = some k →
        (match_or_create m urls freshUuid).1 =
          (m.entries.getD k ⟨"", []⟩).uuid := by
      intro urls freshUuid k hk
      exact ((consumedIdx_spec m urls freshUuid).2 k hk).2.1
    cases hc : consumedIdx m c.1 with
    | none =>
      have hav : (match_or_create m c.1 c.2).2.available = m.available :=
        (consumedIdx_spec m c.1 c.2).1 hc
      refine ⟨?_, ?_, hlink⟩
      · simpa [consumedTrace, hc] using ihnd
      · intro k hk
        simp only [consumedTrace, hc, List.filterMap_cons] at hk
        have := ihmem k (by simpa using hk)
        rw [hav] at this
        exact this
    | some k0 =>
      rcases (consumedIdx_spec m c.1 c.2).2 k0 hc with ⟨hk0av, -, hav⟩
      refine ⟨?_, ?_, hlink⟩
      · simp only [consumedTrace, hc, List.filterMap_cons, id]
        rw [List.nodup_cons]
        refine ⟨?_, ihnd⟩
        intro hk0
        have := ihmem k0 hk0
        rw [hav] at this
        exact (Finset.not_mem_erase k0 m.available) this
      · intro k hk
        simp only [consumedTrace, hc, List.filterMap_cons, id] at hk
        rcases List.mem_cons.mp hk with hk | hk
        · rw [hk]
          exact hk0av
        · have := ihmem k hk
          rw [hav] at this
          exact Finset.mem_of_mem_erase this

/-- Witness for C10 on a concrete run: two calls against a two-entry pool
consume distinct indices. -/
theorem match_or_create_no_reconsume_witness :
    ((consumedTrace (loadMatcher [⟨"u0", ["a"]⟩, ⟨"u1", ["b"]⟩])
        [(["a"], "f1"), (["a"], "f2")]).filterMap id).Nodup ∧
      (consumedTrace (loadMatcher [⟨"u0", ["a"]⟩, ⟨"u1", ["b"]⟩])
        [(["a"], "f1"), (["a"], "f2")]).filterMap id = [0, 1] :=
  ⟨(match_or_create_no_reconsume [(["a"], "f1"), (["a"], "f2")]
      (loadMatcher [⟨"u0", ["a"]⟩, ⟨"u1", ["b"]⟩])).1,
   by decide⟩

end WlrEnv
